import Mathlib

/-!
Verification of the `innit` INI parser/serializer library.

Rust strings are modelled as `List Char`; the two `HashMap` layers of
`IniDocument` are modelled as association lists (a faithful refinement:
a `HashMap` is an unordered finite map with unique keys, realised here
with a concrete entry order; new entries are appended at the end).
Rust `char::is_whitespace` is modelled by `Char.isWhitespace` (ASCII
whitespace) and `str::to_lowercase` by character-wise `Char.toLower`;
both agree with Rust on the ASCII inputs the claims are about.
The library is built with the default line delimiter `"\n"`.
-/

set_option maxHeartbeats 1000000

namespace Innit

/-- Characters of a Rust string. -/
abbrev Str := List Char

/-- One document section: key/value pairs, modelling `HashMap<String, String>`. -/
abbrev Sect := List (Str × Str)

/-- The state of an `IniDocument`: section name to section contents,
modelling `HashMap<String, HashMap<String, String>>`. -/
abbrev Doc := List (Str × Sect)

/-- Rust `char::is_whitespace`, restricted to ASCII whitespace. -/
def isWs (c : Char) : Bool := c.isWhitespace

/-- Rust `str::trim_start`. -/
def trimLeft (s : Str) : Str := s.dropWhile isWs

/-- Rust `str::trim_end`. -/
def trimRight (s : Str) : Str := (trimLeft s.reverse).reverse

/-- Rust `str::trim`. -/
def trim (s : Str) : Str := trimRight (trimLeft s)

/-- `HashMap::get` on an association list: value of the first entry with the given key. -/
def alookup {α : Type} (k : Str) : List (Str × α) → Option α
  | [] => none
  | p :: rest => if p.1 = k then some p.2 else alookup k rest

/-- `HashMap::insert` on a section: overwrite the entry in place if the key is
present (returning the old value), otherwise append a new entry. -/
def hmInsert (k v : Str) : Sect → Option Str × Sect
  | [] => (none, [(k, v)])
  | p :: rest =>
    if p.1 = k then (some p.2, (k, v) :: rest)
    else
      let r := hmInsert k v rest
      (r.1, p :: r.2)

/-- `HashMap::remove` on a section: drop the first entry with the given key,
returning its value. -/
def hmRemove (k : Str) : Sect → Option Str × Sect
  | [] => (none, [])
  | p :: rest =>
    if p.1 = k then (some p.2, rest)
    else
      let r := hmRemove k rest
      (r.1, p :: r.2)

/-- `IniDocument::empty`. -/
def empty : Doc := []

/-- `IniDocument::insert`: if the section exists, insert the pair into it
(returning any overwritten value); otherwise create the section holding
only this pair and return `none`. -/
def insert (k v sec : Str) : Doc → Option Str × Doc
  | [] => (none, [(sec, [(k, v)])])
  | p :: rest =>
    if p.1 = sec then
      let r := hmInsert k v p.2
      (r.1, (p.1, r.2) :: rest)
    else
      let r := insert k v sec rest
      (r.1, p :: r.2)

/-- `IniDocument::get`: look up the section, then the key inside it. -/
def get (k sec : Str) (d : Doc) : Option Str :=
  match alookup sec d with
  | some s => alookup k s
  | none => none

/-- `IniDocument::get_section`. -/
def get_section (sec : Str) (d : Doc) : Option Sect := alookup sec d

/-- `IniDocument::remove`: remove the key from the section if the section
exists, returning the removed value; the section entry itself stays. -/
def remove (k sec : Str) : Doc → Option Str × Doc
  | [] => (none, [])
  | p :: rest =>
    if p.1 = sec then
      let r := hmRemove k p.2
      (r.1, (p.1, r.2) :: rest)
    else
      let r := remove k sec rest
      (r.1, p :: r.2)

/-- `IniDocument::remove_section`: drop the section entry, returning its contents. -/
def remove_section (sec : Str) : Doc → Option Sect × Doc
  | [] => (none, [])
  | p :: rest =>
    if p.1 = sec then (some p.2, rest)
    else
      let r := remove_section sec rest
      (r.1, p :: r.2)

/-- The error type `InnitError` of the parser. -/
inductive InnitError where
  | MissingEquals : Str → Nat → InnitError
  | EmptyStringSection : Nat → InnitError
deriving DecidableEq

/-- `string_is_comment_or_empty`: the line is empty or starts with `#` or `;`. -/
def string_is_comment_or_empty : Str → Bool
  | [] => true
  | c :: _ => c == '#' || c == ';'

/-- `string_is_section_start`: if the line starts with `[` and ends with `]`,
return the text strictly between them (untrimmed). -/
def string_is_section_start (s : Str) : Option Str :=
  match s with
  | [] => none
  | c :: rest =>
    if c == '[' && rest.getLast? == some ']' then some rest.dropLast else none

/-- Rust `str::split_once`: split at the first occurrence of `c`. -/
def splitOnce (c : Char) : Str → Option (Str × Str)
  | [] => none
  | x :: rest =>
    if x == c then some ([], rest)
    else (splitOnce c rest).map (fun p => (x :: p.1, p.2))

/-- `parse_k_v`: split at the first `=` and trim both halves. -/
def parse_k_v (s : Str) : Option (Str × Str) :=
  (splitOnce '=' s).map (fun p => (trim p.1, trim p.2))

/-- Rust `str::split` on the line delimiter `"\n"`: the pieces between
delimiters, including empty ones (one more piece than delimiters). -/
def splitLines : Str → List Str
  | [] => [[]]
  | c :: rest =>
    if c == '\n' then [] :: splitLines rest
    else
      match splitLines rest with
      | [] => [[c]]
      | l :: ls => (c :: l) :: ls

/-- The loop body of `IniDocument::from_string`: process the remaining lines,
carrying the 0-based index of the next line, the current section name and the
document built so far. -/
def processLines : List Str → Nat → Str → Doc → Except InnitError Doc
  | [], _, _, doc => Except.ok doc
  | line :: rest, lnum, cur, doc =>
    let l := trim line
    if string_is_comment_or_empty l then
      processLines rest (lnum + 1) cur doc
    else
      match string_is_section_start l with
      | some name =>
        if name = [] then Except.error (InnitError.EmptyStringSection (lnum + 1))
        else processLines rest (lnum + 1) name doc
      | none =>
        match parse_k_v l with
        | some kv => processLines rest (lnum + 1) cur (insert kv.1 kv.2 cur doc).2
        | none => Except.error (InnitError.MissingEquals l (lnum + 1))

/-- `IniDocument::from_string`: split into lines and process them, starting in
the unnamed section (the empty string) with an empty document. -/
def from_string (s : Str) : Except InnitError Doc :=
  processLines (splitLines s) 0 [] empty

/-- `fmt_hashmap`: each pair as `key = value` followed by the line delimiter. -/
def fmt_hashmap : Sect → Str
  | [] => []
  | p :: rest => p.1 ++ ' ' :: '=' :: ' ' :: p.2 ++ '\n' :: fmt_hashmap rest

/-- The loop of `IniDocument::to_string` over the named sections: skip the
unnamed section, emit `[name]` then the section's pairs. -/
def fmtSections : Doc → Str
  | [] => []
  | p :: rest =>
    if p.1 = [] then fmtSections rest
    else ('[' :: p.1 ++ [']', '\n']) ++ fmt_hashmap p.2 ++ fmtSections rest

/-- `IniDocument::to_string`: the unnamed section's pairs first (if that
section exists), then every named section. -/
def to_string (d : Doc) : Str :=
  (match alookup [] d with
   | some s => fmt_hashmap s
   | none => []) ++ fmtSections d

/-- Rust `str::to_lowercase`, character-wise (ASCII). -/
def lower (s : Str) : Str := s.map Char.toLower

/-- The inner loop of `get_case_insensitive`: first value whose key matches
case-insensitively. -/
def findValCI (key : Str) : Sect → Option Str
  | [] => none
  | p :: rest => if lower p.1 = lower key then some p.2 else findValCI key rest

/-- `IniDocument::get_case_insensitive`: scan the sections; in each section
whose name matches case-insensitively, scan for a case-insensitive key match;
on an inner miss, continue with the remaining sections. -/
def get_case_insensitive (key sec : Str) : Doc → Option Str
  | [] => none
  | p :: rest =>
    if lower p.1 = lower sec then
      match findValCI key p.2 with
      | some v => some v
      | none => get_case_insensitive key sec rest
    else get_case_insensitive key sec rest

/-- `IniDocument::get_section_case_insensitive`: first section whose name
matches case-insensitively. -/
def get_section_case_insensitive (sec : Str) : Doc → Option Sect
  | [] => none
  | p :: rest =>
    if lower p.1 = lower sec then some p.2
    else get_section_case_insensitive sec rest

/-! ### Derived definitions used to state the claims -/

/-- A line on which the parser does not stop: a comment/blank line, a section
header with a nonempty name, or a line containing `=`. -/
def lineOk (l : Str) : Bool :=
  string_is_comment_or_empty (trim l) ||
  (match string_is_section_start (trim l) with
   | some n => !n.isEmpty
   | none => (splitOnce '=' (trim l)).isSome)

/-- The serialized form of one key/value pair, without the delimiter. -/
def kvline (p : Str × Str) : Str := p.1 ++ ' ' :: '=' :: ' ' :: p.2

/-- The serialized lines of one section body. -/
def kvLines (s : Sect) : List Str := s.map kvline

/-- The serialized lines of the named sections: a `[name]` header line then the
section's pair lines, skipping the unnamed section. -/
def sectionLines : Doc → List Str
  | [] => []
  | p :: rest =>
    if p.1 = [] then sectionLines rest
    else ('[' :: p.1 ++ [']']) :: (kvLines p.2 ++ sectionLines rest)

/-- All lines emitted by the serializer: the unnamed section's pairs first (if
that section exists), then every named section. -/
def docLines (d : Doc) : List Str :=
  (match alookup [] d with
   | some s => kvLines s
   | none => []) ++ sectionLines d

/-- Join lines, terminating every line (including the last) with the delimiter. -/
def linesJoin : List Str → Str
  | [] => []
  | l :: ls => l ++ '\n' :: linesJoin ls

/-- A key that the textual format can carry faithfully: no `=`, no line
delimiter, no surrounding whitespace, and not starting with a comment or
section-header character. -/
def goodKey (k : Str) : Bool :=
  decide (trimLeft k = k) && decide (trimRight k = k) &&
  decide ('=' ∉ k) && decide ('\n' ∉ k) &&
  (match k with
   | [] => true
   | c :: _ => !(c == '#' || c == ';' || c == '['))

/-- A value that the textual format can carry faithfully: no line delimiter
and no surrounding whitespace. -/
def goodVal (v : Str) : Bool :=
  decide (trimLeft v = v) && decide (trimRight v = v) && decide ('\n' ∉ v)

/-- A section name that the textual format can carry faithfully: no line
delimiter. -/
def goodName (n : Str) : Bool := decide ('\n' ∉ n)

/-- Build a document purely via `insert`, starting from the empty document:
each element is `(key, value, section)`. -/
def buildDoc (ops : List (Str × Str × Str)) : Doc :=
  ops.foldl (fun d op => (insert op.1 op.2.1 op.2.2 d).2) empty

/-- Insert a list of pairs into one section, in order. -/
def insertAll (ps : Sect) (sec : Str) (d : Doc) : Doc :=
  ps.foldl (fun d q => (insert q.1 q.2 sec d).2) d

/-- Replay the named sections of `ds` into `doc` by inserting each section's
pairs in order, skipping the unnamed section (as the serializer does). -/
def buildTail : Doc → Doc → Doc
  | [], doc => doc
  | p :: rest, doc => buildTail rest (if p.1 = [] then doc else insertAll p.2 p.1 doc)

/-- Sections that survive a serialize/parse round trip: named and nonempty. -/
def keepSect (p : Str × Sect) : Bool := !(List.isEmpty p.1) && !(List.isEmpty p.2)

/-- The document invariant maintained by `insert`-built documents, together
with the textual-faithfulness conditions on all stored strings: section names
are unique and delimiter-free, keys are unique per section, and keys and
values satisfy `goodKey`/`goodVal`. -/
def docWF (d : Doc) : Prop :=
  (d.map Prod.fst).Nodup ∧
  ∀ p ∈ d, (p.2.map Prod.fst).Nodup ∧ goodName p.1 = true ∧
    ∀ q ∈ p.2, goodKey q.1 = true ∧ goodVal q.2 = true

/-! ### Basic lemmas about the association-list operations -/

theorem hmInsert_fst (k v : Str) (s : Sect) : (hmInsert k v s).1 = alookup k s := by
induction s with
| nil => rfl
| cons p rest ih =>
  simp only [hmInsert, alookup]
  by_cases h : p.1 = k <;> simp [h, ih]

theorem alookup_hmInsert_self (k v : Str) (s : Sect) :
    alookup k (hmInsert k v s).2 = some v := by
induction s with
| nil => simp [hmInsert, alookup]
| cons p rest ih =>
  simp only [hmInsert]
  by_cases h : p.1 = k
  · simp [h, alookup]
  · simp [h, alookup, ih]

theorem insert_fst (k v sec : Str) (d : Doc) : (insert k v sec d).1 = get k sec d := by
induction d with
| nil => rfl
| cons p rest ih =>
  simp only [insert, get, alookup]
  by_cases h : p.1 = sec
  · simp [h, hmInsert_fst]
  · simpa [h, get] using ih

theorem get_insert_self (k v sec : Str) (d : Doc) :
    get k sec (insert k v sec d).2 = some v := by
induction d with
| nil => simp [insert, get, alookup, alookup_hmInsert_self]
| cons p rest ih =>
  simp only [insert]
  by_cases h : p.1 = sec
  · simp [h, get, alookup, alookup_hmInsert_self]
  · simpa [h, get, alookup] using ih

theorem insert_of_not_mem (k v sec : Str) (d : Doc) (h : alookup sec d = none) :
    insert k v sec d = (none, d ++ [(sec, [(k, v)])]) := by
induction d with
| nil => rfl
| cons p rest ih =>
  simp only [alookup] at h
  by_cases hp : p.1 = sec
  · simp [hp] at h
  · simp only [hp, if_false] at h
    simp [insert, hp, ih h]

/-- Claim C4: `insert` returns the previous value of the key in the section
(hence `none` when the section is absent), leaves the key mapped to the new
value, creates an absent section so that it holds only the inserted pair, and
on a second insert of the same key returns the first inserted value while only
the latest value remains. -/
theorem claim4_insert_spec (d : Doc) (k v v2 sec : Str) :
    (insert k v sec d).1 = get k sec d ∧
    get k sec (insert k v sec d).2 = some v ∧
    (alookup sec d = none →
      (insert k v sec d).1 = none ∧
      alookup sec (insert k v sec d).2 = some [(k, v)]) ∧
    (insert k v2 sec (insert k v sec d).2).1 = some v ∧
    get k sec (insert k v2 sec (insert k v sec d).2).2 = some v2 := by
refine ⟨insert_fst k v sec d, get_insert_self k v sec d, ?_, ?_, get_insert_self k v2 sec _⟩
· intro h
  rw [insert_of_not_mem k v sec d h]
  constructor
  · rfl
  · induction d with
    | nil => simp [alookup]
    | cons p rest ih =>
      simp only [alookup] at h ⊢
      by_cases hp : p.1 = sec
      · simp [hp] at h
      · simp only [hp, if_false] at h ⊢
        exact ih h
· rw [insert_fst]
  exact get_insert_self k v sec d

/-- Witness for C4 at concrete inputs: inserting into the empty document
creates the section with exactly the inserted pair. -/
theorem claim4_insert_spec_witness :
    (insert ['a'] ['1'] ['s'] empty).1 = none ∧
    alookup ['s'] (insert ['a'] ['1'] ['s'] empty).2 = some [(['a'], ['1'])] :=
  (claim4_insert_spec empty ['a'] ['1'] ['2'] ['s']).2.2.1 rfl

theorem hmRemove_fst (k : Str) (s : Sect) : (hmRemove k s).1 = alookup k s := by
induction s with
| nil => rfl
| cons p rest ih =>
  simp only [hmRemove, alookup]
  by_cases h : p.1 = k <;> simp [h, ih]

theorem alookup_eq_none_of_not_mem {α : Type} (x : Str) (l : List (Str × α))
    (h : x ∉ l.map Prod.fst) : alookup x l = none := by
induction l with
| nil => rfl
| cons p rest ih =>
  simp only [List.map_cons, List.mem_cons] at h
  push_neg at h
  simp only [alookup]
  rw [if_neg (fun he => h.1 he.symm)]
  exact ih h.2

theorem alookup_hmRemove_self (k : Str) (s : Sect) (h : (s.map Prod.fst).Nodup) :
    alookup k (hmRemove k s).2 = none := by
induction s with
| nil => rfl
| cons p rest ih =>
  simp only [List.map_cons, List.nodup_cons] at h
  simp only [hmRemove]
  by_cases hp : p.1 = k
  · simp only [hp, if_pos rfl]
    exact alookup_eq_none_of_not_mem k rest (hp ▸ h.1)
  · simp [hp, alookup, ih h.2]

theorem alookup_hmRemove_other (k k' : Str) (s : Sect) (h : k' ≠ k) :
    alookup k' (hmRemove k s).2 = alookup k' s := by
induction s with
| nil => rfl
| cons p rest ih =>
  by_cases hp : p.1 = k
  · have h1 : ¬(k = k') := fun he => h he.symm
    simp [hmRemove, hp, alookup, h1]
  · by_cases hq : p.1 = k'
    · simp [hmRemove, alookup, hp, hq, h]
    · simp [hmRemove, alookup, hp, hq, ih]

theorem remove_fst (k sec : Str) (d : Doc) : (remove k sec d).1 = get k sec d := by
induction d with
| nil => rfl
| cons p rest ih =>
  simp only [remove, get, alookup]
  by_cases h : p.1 = sec
  · simp [h, hmRemove_fst]
  · simpa [h, get] using ih

theorem remove_names (k sec : Str) (d : Doc) :
    ((remove k sec d).2).map Prod.fst = d.map Prod.fst := by
induction d with
| nil => rfl
| cons p rest ih =>
  simp only [remove]
  by_cases h : p.1 = sec <;> simp [h, ih]

theorem alookup_isSome_iff {α : Type} (x : Str) (l : List (Str × α)) :
    (alookup x l).isSome = true ↔ x ∈ l.map Prod.fst := by
induction l with
| nil =>
  constructor
  · intro h
    exact Bool.noConfusion h
  · intro h
    exact absurd h (List.not_mem_nil x)
| cons p rest ih =>
  rw [show alookup x (p :: rest) = if p.1 = x then some p.2 else alookup x rest from rfl]
  by_cases h : p.1 = x
  · rw [if_pos h, List.map_cons, ← h]
    constructor
    · intro _
      exact List.mem_cons_self p.1 (rest.map Prod.fst)
    · intro _
      rfl
  · rw [if_neg h, List.map_cons]
    constructor
    · intro hs
      exact List.mem_cons_of_mem _ (ih.mp hs)
    · intro hm
      rcases List.mem_cons.mp hm with he | hm2
      · exact absurd he.symm h
      · exact ih.mpr hm2

theorem alookup_remove_self (k sec : Str) (d : Doc) :
    alookup sec (remove k sec d).2 = (alookup sec d).map (fun s => (hmRemove k s).2) := by
induction d with
| nil => rfl
| cons p rest ih =>
  simp only [remove, alookup]
  by_cases h : p.1 = sec <;> simp [h, alookup, ih]

theorem alookup_remove_other (k sec sec' : Str) (d : Doc) (h : sec' ≠ sec) :
    alookup sec' (remove k sec d).2 = alookup sec' d := by
induction d with
| nil => rfl
| cons p rest ih =>
  by_cases hp : p.1 = sec
  · have h1 : ¬(sec = sec') := fun he => h he.symm
    simp [remove, hp, alookup, h1]
  · by_cases hq : p.1 = sec'
    · simp [remove, alookup, hp, hq, h]
    · simp [remove, alookup, hp, hq, ih]

/-- Claim C5: `remove` returns the previous value of the key (hence `none`,
never an error, when the key or the section is absent), removes the key, never
removes the section entry itself (the set of present sections is unchanged),
and changes no other section and no other key of the same section. -/
theorem claim5_remove_spec (d : Doc) (k k' sec sec' : Str)
    (hnd : ∀ s, alookup sec d = some s → (s.map Prod.fst).Nodup) :
    (remove k sec d).1 = get k sec d ∧
    get k sec (remove k sec d).2 = none ∧
    ((alookup sec' (remove k sec d).2).isSome = (alookup sec' d).isSome) ∧
    (sec' ≠ sec → alookup sec' (remove k sec d).2 = alookup sec' d) ∧
    (k' ≠ k → get k' sec (remove k sec d).2 = get k' sec d) := by
refine ⟨remove_fst k sec d, ?_, ?_, alookup_remove_other k sec sec' d, ?_⟩
· unfold get
  rw [alookup_remove_self]
  cases h : alookup sec d with
  | none => rfl
  | some s =>
    simp only [Option.map_some']
    exact alookup_hmRemove_self k s (hnd s h)
· rw [Bool.eq_iff_iff, alookup_isSome_iff, alookup_isSome_iff, remove_names]
· intro hk
  unfold get
  rw [alookup_remove_self]
  cases h : alookup sec d with
  | none => rfl
  | some s =>
    simp only [Option.map_some']
    exact alookup_hmRemove_other k k' s hk

/-- Witness for C5 at concrete inputs: removing `a` from section `s` of a
two-key section keeps the section and the other key. -/
theorem claim5_remove_spec_witness :
    (remove ['a'] ['s'] [(['s'], [(['a'], ['1']), (['b'], ['2'])])]).1 =
      get ['a'] ['s'] [(['s'], [(['a'], ['1']), (['b'], ['2'])])] ∧
    get ['a'] ['s'] (remove ['a'] ['s'] [(['s'], [(['a'], ['1']), (['b'], ['2'])])]).2 = none ∧
    ((alookup ['t'] (remove ['a'] ['s'] [(['s'], [(['a'], ['1']), (['b'], ['2'])])]).2).isSome =
      (alookup ['t'] [(['s'], [(['a'], ['1']), (['b'], ['2'])])]).isSome) ∧
    ((['t'] : Str) ≠ ['s'] →
      alookup ['t'] (remove ['a'] ['s'] [(['s'], [(['a'], ['1']), (['b'], ['2'])])]).2 =
      alookup ['t'] [(['s'], [(['a'], ['1']), (['b'], ['2'])])]) ∧
    ((['b'] : Str) ≠ ['a'] →
      get ['b'] ['s'] (remove ['a'] ['s'] [(['s'], [(['a'], ['1']), (['b'], ['2'])])]).2 =
      get ['b'] ['s'] [(['s'], [(['a'], ['1']), (['b'], ['2'])])]) :=
  claim5_remove_spec [(['s'], [(['a'], ['1']), (['b'], ['2'])])] ['a'] ['b'] ['s'] ['t']
    (by decide)

/-! ### Case-insensitive lookup -/

theorem findValCI_isSome_iff (key : Str) (s : Sect) :
    (findValCI key s).isSome = true ↔ ∃ q ∈ s, lower q.1 = lower key := by
induction s with
| nil =>
  constructor
  · intro h
    exact Bool.noConfusion h
  · rintro ⟨q, hq, -⟩
    exact absurd hq (List.not_mem_nil q)
| cons p rest ih =>
  rw [show findValCI key (p :: rest) =
      if lower p.1 = lower key then some p.2 else findValCI key rest from rfl]
  by_cases h : lower p.1 = lower key
  · rw [if_pos h]
    exact ⟨fun _ => ⟨p, List.mem_cons_self p rest, h⟩, fun _ => rfl⟩
  · rw [if_neg h]
    constructor
    · intro hs
      obtain ⟨q, hq, hl⟩ := ih.mp hs
      exact ⟨q, List.mem_cons_of_mem p hq, hl⟩
    · rintro ⟨q, hq, hl⟩
      rcases List.mem_cons.mp hq with he | hm
      · exact absurd (he ▸ hl) h
      · exact ih.mpr ⟨q, hm, hl⟩

theorem getCI_isSome_iff (key sec : Str) (d : Doc) :
    (get_case_insensitive key sec d).isSome = true ↔
    ∃ p ∈ d, lower p.1 = lower sec ∧ ∃ q ∈ p.2, lower q.1 = lower key := by
induction d with
| nil =>
  constructor
  · intro h
    exact Bool.noConfusion h
  · rintro ⟨p, hp, -⟩
    exact absurd hp (List.not_mem_nil p)
| cons p rest ih =>
  by_cases h : lower p.1 = lower sec
  · rw [show get_case_insensitive key sec (p :: rest) =
        (match findValCI key p.2 with
         | some v => some v
         | none => get_case_insensitive key sec rest) from by
      rw [get_case_insensitive, if_pos h]]
    cases hf : findValCI key p.2 with
    | some v =>
      constructor
      · intro _
        have : (findValCI key p.2).isSome = true := by rw [hf]; rfl
        obtain ⟨q, hq, hl⟩ := (findValCI_isSome_iff key p.2).mp this
        exact ⟨p, List.mem_cons_self p rest, h, q, hq, hl⟩
      · intro _
        rfl
    | none =>
      rw [ih]
      constructor
      · rintro ⟨r, hr, hls, hq⟩
        exact ⟨r, List.mem_cons_of_mem p hr, hls, hq⟩
      · rintro ⟨r, hr, hls, hq⟩
        rcases List.mem_cons.mp hr with he | hm
        · exfalso
          have : (findValCI key p.2).isSome = true :=
            (findValCI_isSome_iff key p.2).mpr (he ▸ hq)
          rw [hf] at this
          exact Bool.noConfusion this
        · exact ⟨r, hm, hls, hq⟩
  · rw [show get_case_insensitive key sec (p :: rest) =
        get_case_insensitive key sec rest from by
      rw [get_case_insensitive, if_neg h]]
    rw [ih]
    constructor
    · rintro ⟨r, hr, hls, hq⟩
      exact ⟨r, List.mem_cons_of_mem p hr, hls, hq⟩
    · rintro ⟨r, hr, hls, hq⟩
      rcases List.mem_cons.mp hr with he | hm
      · exact absurd (he ▸ hls) h
      · exact ⟨r, hm, hls, hq⟩

theorem getSectCI_isSome_iff (sec : Str) (d : Doc) :
    (get_section_case_insensitive sec d).isSome = true ↔
    ∃ p ∈ d, lower p.1 = lower sec := by
induction d with
| nil =>
  constructor
  · intro h
    exact Bool.noConfusion h
  · rintro ⟨p, hp, -⟩
    exact absurd hp (List.not_mem_nil p)
| cons p rest ih =>
  rw [show get_section_case_insensitive sec (p :: rest) =
      if lower p.1 = lower sec then some p.2
      else get_section_case_insensitive sec rest from rfl]
  by_cases h : lower p.1 = lower sec
  · rw [if_pos h]
    exact ⟨fun _ => ⟨p, List.mem_cons_self p rest, h⟩, fun _ => rfl⟩
  · rw [if_neg h]
    constructor
    · intro hs
      obtain ⟨q, hq, hl⟩ := ih.mp hs
      exact ⟨q, List.mem_cons_of_mem p hq, hl⟩
    · rintro ⟨q, hq, hl⟩
      rcases List.mem_cons.mp hq with he | hm
      · exact absurd (he ▸ hl) h
      · exact ih.mpr ⟨q, hm, hl⟩

/-- Claim C10: `get_case_insensitive` returns a value exactly when some
section whose lowercased name equals the lowercased query contains some key
whose lowercased name equals the lowercased key — every case-folded-matching
section is searched, not only the first. -/
theorem claim10_getCI_complete (d : Doc) (key sec : Str) :
    (get_case_insensitive key sec d).isSome = true ↔
    ∃ p ∈ d, lower p.1 = lower sec ∧ ∃ q ∈ p.2, lower q.1 = lower key :=
  getCI_isSome_iff key sec d

/-- Claim C9: if a document has a section entry and a key in it that
case-fold to the queried names, and no section is named exactly by the query,
then both case-insensitive accessors find a match while `get` and
`get_section` find nothing. -/
theorem claim9_case_sensitivity (d : Doc) (n : Str) (s : Sect) (k' v key sec : Str)
    (hmem : (n, s) ∈ d) (hk : (k', v) ∈ s)
    (hlsec : lower n = lower sec) (hlkey : lower k' = lower key)
    (hnone : alookup sec d = none) :
    (get_case_insensitive key sec d).isSome = true ∧
    (get_section_case_insensitive sec d).isSome = true ∧
    get key sec d = none ∧
    get_section sec d = none := by
refine ⟨?_, ?_, ?_, hnone⟩
· exact (getCI_isSome_iff key sec d).mpr ⟨(n, s), hmem, hlsec, (k', v), hk, hlkey⟩
· exact (getSectCI_isSome_iff sec d).mpr ⟨(n, s), hmem, hlsec⟩
· unfold get
  rw [hnone]

/-- Witness for C9 at the spec's example: section `SECtion1` with key `FOO`,
queried as `section1` and `foo`. -/
theorem claim9_case_sensitivity_witness :
    (get_case_insensitive "foo".toList "section1".toList
      [("SECtion1".toList, [("FOO".toList, "bar".toList)])]).isSome = true ∧
    (get_section_case_insensitive "section1".toList
      [("SECtion1".toList, [("FOO".toList, "bar".toList)])]).isSome = true ∧
    get "foo".toList "section1".toList
      [("SECtion1".toList, [("FOO".toList, "bar".toList)])] = none ∧
    get_section "section1".toList
      [("SECtion1".toList, [("FOO".toList, "bar".toList)])] = none :=
  claim9_case_sensitivity [("SECtion1".toList, [("FOO".toList, "bar".toList)])]
    "SECtion1".toList [("FOO".toList, "bar".toList)] "FOO".toList "bar".toList
    "foo".toList "section1".toList (by decide) (by decide) (by decide) (by decide)
    (by decide)

/-! ### Parser step lemmas -/

theorem processLines_cons_comment {line : Str} (rest : List Str) (n : Nat) (cur : Str)
    (doc : Doc) (h : string_is_comment_or_empty (trim line) = true) :
    processLines (line :: rest) n cur doc = processLines rest (n + 1) cur doc := by
simp [processLines, h]

theorem processLines_cons_section {line name : Str} (rest : List Str) (n : Nat) (cur : Str)
    (doc : Doc) (hc : string_is_comment_or_empty (trim line) = false)
    (hs : string_is_section_start (trim line) = some name) (hn : name ≠ []) :
    processLines (line :: rest) n cur doc = processLines rest (n + 1) name doc := by
simp [processLines, hc, hs, hn]

theorem processLines_cons_section_empty {line : Str} (rest : List Str) (n : Nat) (cur : Str)
    (doc : Doc) (hc : string_is_comment_or_empty (trim line) = false)
    (hs : string_is_section_start (trim line) = some []) :
    processLines (line :: rest) n cur doc =
      Except.error (InnitError.EmptyStringSection (n + 1)) := by
simp [processLines, hc, hs]

theorem processLines_cons_kv {line : Str} {kv : Str × Str} (rest : List Str) (n : Nat)
    (cur : Str) (doc : Doc) (hc : string_is_comment_or_empty (trim line) = false)
    (hs : string_is_section_start (trim line) = none)
    (hkv : parse_k_v (trim line) = some kv) :
    processLines (line :: rest) n cur doc =
      processLines rest (n + 1) cur (insert kv.1 kv.2 cur doc).2 := by
simp [processLines, hc, hs, hkv]

theorem processLines_cons_missing {line : Str} (rest : List Str) (n : Nat) (cur : Str)
    (doc : Doc) (hc : string_is_comment_or_empty (trim line) = false)
    (hs : string_is_section_start (trim line) = none)
    (hkv : parse_k_v (trim line) = none) :
    processLines (line :: rest) n cur doc =
      Except.error (InnitError.MissingEquals (trim line) (n + 1)) := by
simp [processLines, hc, hs, hkv]

theorem processLines_ok_prefix (pre : List Str) (rest : List Str) (n : Nat) (cur : Str)
    (doc : Doc) (h : ∀ x ∈ pre, lineOk x = true) :
    ∃ cur' doc', processLines (pre ++ rest) n cur doc =
      processLines rest (n + pre.length) cur' doc' := by
induction pre generalizing n cur doc with
| nil => exact ⟨cur, doc, by simp⟩
| cons x pre' ih =>
  have hx := h x (List.mem_cons_self x pre')
  have h' : ∀ y ∈ pre', lineOk y = true := fun y hy => h y (List.mem_cons_of_mem x hy)
  rw [List.cons_append]
  cases hc : string_is_comment_or_empty (trim x) with
  | true =>
    rw [processLines_cons_comment _ _ _ _ hc]
    obtain ⟨c', d', heq⟩ := ih (n + 1) cur doc h'
    have harith : n + 1 + pre'.length = n + (x :: pre').length := by
      simp [List.length_cons]
      omega
    rw [harith] at heq
    exact ⟨c', d', heq⟩
  | false =>
    unfold lineOk at hx
    rw [hc] at hx
    simp only [Bool.false_or] at hx
    cases hs : string_is_section_start (trim x) with
    | some name =>
      rw [hs] at hx
      have hn : name ≠ [] := by
        intro hcon
        rw [hcon] at hx
        exact Bool.noConfusion hx
      rw [processLines_cons_section _ _ _ _ hc hs hn]
      obtain ⟨c', d', heq⟩ := ih (n + 1) name doc h'
      have harith : n + 1 + pre'.length = n + (x :: pre').length := by
        simp [List.length_cons]
        omega
      rw [harith] at heq
      exact ⟨c', d', heq⟩
    | none =>
      rw [hs] at hx
      cases hsp : splitOnce '=' (trim x) with
      | none =>
        rw [hsp] at hx
        exact Bool.noConfusion hx
      | some q =>
        have hkv : parse_k_v (trim x) = some (trim q.1, trim q.2) := by
          rw [parse_k_v, hsp]
          rfl
        rw [processLines_cons_kv _ _ _ _ hc hs hkv]
        obtain ⟨c', d', heq⟩ := ih (n + 1) cur _ h'
        have harith : n + 1 + pre'.length = n + (x :: pre').length := by
          simp [List.length_cons]
          omega
        rw [harith] at heq
        exact ⟨c', d', heq⟩

/-- Claim C2 (amended): if every line before the offending one is a line the
parser accepts, and the offending line is neither a comment/blank line nor a
section header and contains no `=`, then parsing fails with `MissingEquals`
carrying the TRIMMED text of that line and its 1-based line number. -/
theorem claim2_missing_equals (s : Str) (pre : List Str) (l : Str) (post : List Str)
    (hsplit : splitLines s = pre ++ l :: post)
    (hpre : ∀ x ∈ pre, lineOk x = true)
    (hnc : string_is_comment_or_empty (trim l) = false)
    (hns : string_is_section_start (trim l) = none)
    (hne : splitOnce '=' (trim l) = none) :
    from_string s = Except.error (InnitError.MissingEquals (trim l) (pre.length + 1)) := by
unfold from_string
rw [hsplit]
obtain ⟨cur', doc', heq⟩ := processLines_ok_prefix pre (l :: post) 0 [] empty hpre
rw [heq]
have hkv : parse_k_v (trim l) = none := by
  rw [parse_k_v, hne]
  rfl
rw [processLines_cons_missing _ _ _ _ hnc hns hkv]
have : 0 + pre.length = pre.length := by omega
rw [this]

/-- Witness for C2: parsing the single line `beans` fails with
`MissingEquals("beans", 1)`. -/
theorem claim2_missing_equals_witness :
    from_string "beans".toList =
      Except.error (InnitError.MissingEquals (trim "beans".toList)
        (List.length ([] : List Str) + 1)) :=
  claim2_missing_equals "beans".toList [] "beans".toList [] (by decide) (by decide)
    (by decide) (by decide) (by decide)

/-- Counterexample for C2 as stated: on the line `" beans"` (leading space)
the error carries the trimmed text `beans`, not the full original line text. -/
theorem claim2_counterexample :
    from_string " beans".toList =
      Except.error (InnitError.MissingEquals "beans".toList 1) ∧
    from_string " beans".toList ≠
      Except.error (InnitError.MissingEquals " beans".toList 1) := by
constructor
· rfl
· intro h
  have h2 : (Except.error (InnitError.MissingEquals "beans".toList 1) :
      Except InnitError Doc) =
      Except.error (InnitError.MissingEquals " beans".toList 1) := by
    rw [← h]
    rfl
  have h3 : InnitError.MissingEquals "beans".toList 1 =
      InnitError.MissingEquals " beans".toList 1 := by
    injection h2
  have h4 : "beans".toList = " beans".toList := by
    injection h3
  exact absurd h4 (by decide)

/-- Claim C3: if every line before the offending one is a line the parser
accepts, and the offending line trims to a section header with empty inner
text, parsing fails with `EmptyStringSection` carrying the 1-based line number
of that line, and no document is produced. -/
theorem claim3_empty_section (s : Str) (pre : List Str) (l : Str) (post : List Str)
    (hsplit : splitLines s = pre ++ l :: post)
    (hpre : ∀ x ∈ pre, lineOk x = true)
    (hsec : string_is_section_start (trim l) = some []) :
    from_string s = Except.error (InnitError.EmptyStringSection (pre.length + 1)) ∧
    ∀ d : Doc, from_string s ≠ Except.ok d := by
have hnc : string_is_comment_or_empty (trim l) = false := by
  cases ht : trim l with
  | nil =>
    rw [ht] at hsec
    exact Option.noConfusion hsec
  | cons c cs =>
    rw [ht] at hsec
    have hred : string_is_section_start (c :: cs) =
        if c == '[' && cs.getLast? == some ']' then some cs.dropLast else none := rfl
    rw [hred] at hsec
    by_cases hcond : (c == '[' && cs.getLast? == some ']') = true
    · have hc : c = '[' := by
        have := (Bool.and_eq_true _ _).mp hcond
        exact beq_iff_eq.mp this.1
      rw [hc]
      rfl
    · rw [if_neg hcond] at hsec
      exact Option.noConfusion hsec
have hmain : from_string s = Except.error (InnitError.EmptyStringSection (pre.length + 1)) := by
  unfold from_string
  rw [hsplit]
  obtain ⟨cur', doc', heq⟩ := processLines_ok_prefix pre (l :: post) 0 [] empty hpre
  rw [heq]
  rw [processLines_cons_section_empty _ _ _ _ hnc hsec]
  have : 0 + pre.length = pre.length := by omega
  rw [this]
refine ⟨hmain, fun d hd => ?_⟩
rw [hmain] at hd
exact Except.noConfusion hd

/-- Witness for C3: in `x = y` then `[]`, parsing fails with
`EmptyStringSection(2)`. -/
theorem claim3_empty_section_witness :
    from_string "x = y\n[]".toList =
      Except.error (InnitError.EmptyStringSection (List.length ["x = y".toList] + 1)) ∧
    ∀ d : Doc, from_string "x = y\n[]".toList ≠ Except.ok d :=
  claim3_empty_section "x = y\n[]".toList ["x = y".toList] "[]".toList []
    (by decide) (by decide) (by decide)

theorem processLines_ok_irrel (lines : List Str) (n m : Nat) (cur : Str) (doc : Doc)
    (e : Doc) :
    (processLines lines n cur doc = Except.ok e) ↔
    (processLines lines m cur doc = Except.ok e) := by
induction lines generalizing n m cur doc with
| nil => exact Iff.rfl
| cons x rest ih =>
  cases hc : string_is_comment_or_empty (trim x) with
  | true =>
    rw [processLines_cons_comment _ _ _ _ hc, processLines_cons_comment _ _ _ _ hc]
    exact ih _ _ _ _
  | false =>
    cases hs : string_is_section_start (trim x) with
    | some name =>
      by_cases hn : name = []
      · rw [hn] at hs
        rw [processLines_cons_section_empty _ _ _ _ hc hs,
            processLines_cons_section_empty _ _ _ _ hc hs]
        constructor <;> (intro h; exact Except.noConfusion h)
      · rw [processLines_cons_section _ _ _ _ hc hs hn,
            processLines_cons_section _ _ _ _ hc hs hn]
        exact ih _ _ _ _
    | none =>
      cases hkv : parse_k_v (trim x) with
      | some kv =>
        rw [processLines_cons_kv _ _ _ _ hc hs hkv,
            processLines_cons_kv _ _ _ _ hc hs hkv]
        exact ih _ _ _ _
      | none =>
        rw [processLines_cons_missing _ _ _ _ hc hs hkv,
            processLines_cons_missing _ _ _ _ hc hs hkv]
        constructor <;> (intro h; exact Except.noConfusion h)

theorem processLines_skip_comment_ok (pre : List Str) (l : Str) (post : List Str)
    (n m : Nat) (cur : Str) (doc : Doc) (e : Doc)
    (hcl : string_is_comment_or_empty (trim l) = true) :
    (processLines (pre ++ l :: post) n cur doc = Except.ok e) ↔
    (processLines (pre ++ post) m cur doc = Except.ok e) := by
induction pre generalizing n m cur doc with
| nil =>
  rw [List.nil_append, List.nil_append, processLines_cons_comment _ _ _ _ hcl]
  exact processLines_ok_irrel post _ _ cur doc e
| cons x pre' ih =>
  rw [List.cons_append, List.cons_append]
  cases hc : string_is_comment_or_empty (trim x) with
  | true =>
    rw [processLines_cons_comment _ _ _ _ hc, processLines_cons_comment _ _ _ _ hc]
    exact ih _ _ _ _
  | false =>
    cases hs : string_is_section_start (trim x) with
    | some name =>
      by_cases hn : name = []
      · rw [hn] at hs
        rw [processLines_cons_section_empty _ _ _ _ hc hs,
            processLines_cons_section_empty _ _ _ _ hc hs]
        constructor <;> (intro h; exact Except.noConfusion h)
      · rw [processLines_cons_section _ _ _ _ hc hs hn,
            processLines_cons_section _ _ _ _ hc hs hn]
        exact ih _ _ _ _
    | none =>
      cases hkv : parse_k_v (trim x) with
      | some kv =>
        rw [processLines_cons_kv _ _ _ _ hc hs hkv,
            processLines_cons_kv _ _ _ _ hc hs hkv]
        exact ih _ _ _ _
      | none =>
        rw [processLines_cons_missing _ _ _ _ hc hs hkv,
            processLines_cons_missing _ _ _ _ hc hs hkv]
        constructor <;> (intro h; exact Except.noConfusion h)

/-- Claim C8: a line that trims to the empty string or starts with `#` or `;`
contributes nothing: at any position, an input with such a line and the same
input without it parse to exactly the same documents. -/
theorem claim8_comment_skip (s s' : Str) (pre : List Str) (l : Str) (post : List Str)
    (e : Doc)
    (h1 : splitLines s = pre ++ l :: post) (h2 : splitLines s' = pre ++ post)
    (hc : string_is_comment_or_empty (trim l) = true) :
    (from_string s = Except.ok e ↔ from_string s' = Except.ok e) := by
unfold from_string
rw [h1, h2]
exact processLines_skip_comment_ok pre l post 0 0 [] empty e hc

/-- Witness for C8: dropping the comment line `; c` between two pair lines
leaves the parsed document unchanged. -/
theorem claim8_comment_skip_witness :
    (from_string "a = b\n; c\nd = e".toList =
      Except.ok [([], [("a".toList, "b".toList), ("d".toList, "e".toList)])] ↔
    from_string "a = b\nd = e".toList =
      Except.ok [([], [("a".toList, "b".toList), ("d".toList, "e".toList)])]) :=
  claim8_comment_skip "a = b\n; c\nd = e".toList "a = b\nd = e".toList
    ["a = b".toList] "; c".toList ["d = e".toList]
    [([], [("a".toList, "b".toList), ("d".toList, "e".toList)])]
    (by decide) (by decide) (by decide)

theorem processLines_ok_prefix_nosect (pre : List Str) (rest : List Str) (n : Nat)
    (cur : Str) (doc : Doc)
    (h : ∀ x ∈ pre, lineOk x = true ∧ string_is_section_start (trim x) = none) :
    ∃ doc', processLines (pre ++ rest) n cur doc =
      processLines rest (n + pre.length) cur doc' := by
induction pre generalizing n doc with
| nil => exact ⟨doc, by simp⟩
| cons x pre' ih =>
  have hx := h x (List.mem_cons_self x pre')
  have h' : ∀ y ∈ pre', lineOk y = true ∧ string_is_section_start (trim y) = none :=
    fun y hy => h y (List.mem_cons_of_mem x hy)
  rw [List.cons_append]
  cases hc : string_is_comment_or_empty (trim x) with
  | true =>
    rw [processLines_cons_comment _ _ _ _ hc]
    obtain ⟨d', heq⟩ := ih (n + 1) doc h'
    have harith : n + 1 + pre'.length = n + (x :: pre').length := by
      simp [List.length_cons]
      omega
    rw [harith] at heq
    exact ⟨d', heq⟩
  | false =>
    have hok := hx.1
    unfold lineOk at hok
    rw [hc, hx.2] at hok
    simp only [Bool.false_or] at hok
    cases hsp : splitOnce '=' (trim x) with
    | none =>
      rw [hsp] at hok
      exact Bool.noConfusion hok
    | some q =>
      have hkv : parse_k_v (trim x) = some (trim q.1, trim q.2) := by
        rw [parse_k_v, hsp]
        rfl
      rw [processLines_cons_kv _ _ _ _ hc hx.2 hkv]
      obtain ⟨d', heq⟩ := ih (n + 1) _ h'
      have harith : n + 1 + pre'.length = n + (x :: pre').length := by
        simp [List.length_cons]
        omega
      rw [harith] at heq
      exact ⟨d', heq⟩

/-- Claim C6: the unnamed section is addressed by the empty string: a
key/value line appearing before any section header is inserted into the
empty-string section, and for every document, `insert(k, v, "")` followed by
`get(k, "")` returns `v`. -/
theorem claim6_default_section (s : Str) (pre : List Str) (l : Str) (post : List Str)
    (k v : Str)
    (hsplit : splitLines s = pre ++ l :: post)
    (hpre : ∀ x ∈ pre, lineOk x = true ∧ string_is_section_start (trim x) = none)
    (hnc : string_is_comment_or_empty (trim l) = false)
    (hns : string_is_section_start (trim l) = none)
    (hkv : parse_k_v (trim l) = some (k, v)) :
    (∃ doc', from_string s =
        processLines post (pre.length + 1) [] (insert k v [] doc').2 ∧
      get k [] (insert k v [] doc').2 = some v) ∧
    ∀ (d : Doc) (k' v' : Str), get k' [] (insert k' v' [] d).2 = some v' := by
constructor
· obtain ⟨doc', heq⟩ := processLines_ok_prefix_nosect pre (l :: post) 0 [] empty hpre
  refine ⟨doc', ?_, get_insert_self k v [] doc'⟩
  unfold from_string
  rw [hsplit, heq, processLines_cons_kv _ _ _ _ hnc hns hkv]
  have harith : 0 + pre.length = pre.length := by omega
  rw [harith]
· intro d k' v'
  exact get_insert_self k' v' [] d

/-- Witness for C6: the pair line `foo = bar` after one other pair line and no
header is inserted into the empty-string section, and a concrete
`insert`-then-`get` through the empty string returns the value. -/
theorem claim6_default_section_witness :
    get ['x'] [] (insert ['x'] ['1'] [] empty).2 = some ['1'] :=
  (claim6_default_section "a = b\nfoo = bar".toList ["a = b".toList]
    "foo = bar".toList [] "foo".toList "bar".toList
    (by decide) (by decide) (by decide) (by decide) (by decide)).2 empty ['x'] ['1']

/-! ### Serializer shape -/

theorem linesJoin_append (a b : List Str) :
    linesJoin (a ++ b) = linesJoin a ++ linesJoin b := by
induction a with
| nil => rfl
| cons l ls ih => simp [linesJoin, ih]

theorem fmt_hashmap_eq_linesJoin (s : Sect) : fmt_hashmap s = linesJoin (kvLines s) := by
induction s with
| nil => rfl
| cons p rest ih => simp [fmt_hashmap, kvLines, kvline, linesJoin, ih]

theorem fmtSections_eq_linesJoin (d : Doc) : fmtSections d = linesJoin (sectionLines d) := by
induction d with
| nil => rfl
| cons p rest ih =>
  by_cases h : p.1 = []
  · simp [fmtSections, sectionLines, h, ih]
  · simp [fmtSections, sectionLines, h, ih, linesJoin, linesJoin_append,
      fmt_hashmap_eq_linesJoin]

theorem to_string_eq_linesJoin (d : Doc) : to_string d = linesJoin (docLines d) := by
unfold to_string docLines
rw [linesJoin_append]
cases h : alookup [] d with
| none => simp [fmtSections_eq_linesJoin, linesJoin]
| some s => simp [fmt_hashmap_eq_linesJoin, fmtSections_eq_linesJoin]

theorem linesJoin_last (ls : List Str) :
    linesJoin ls = [] ∨ (linesJoin ls).getLast? = some '\n' := by
induction ls with
| nil => exact Or.inl rfl
| cons l ls ih =>
  right
  rw [show linesJoin (l :: ls) = l ++ '\n' :: linesJoin ls from rfl]
  rcases ih with h | h
  · rw [h]
    exact List.getLast?_concat l
  · rw [show ('\n' :: linesJoin ls : Str) = ['\n'] ++ linesJoin ls from rfl,
      List.getLast?_append, List.getLast?_append, h]
    rfl

/-- Claim C7: `to_string` is total (a Lean function) and its output is exactly
the join of `docLines` — the unnamed section's `key = value` lines first (when
that section exists), then for every named section a `[name]` header line
followed by its `key = value` lines — with every line, including the last,
terminated by the line delimiter. -/
theorem claim7_serializer_shape (d : Doc) :
    to_string d = linesJoin (docLines d) ∧
    (to_string d = [] ∨ (to_string d).getLast? = some '\n') := by
refine ⟨to_string_eq_linesJoin d, ?_⟩
rw [to_string_eq_linesJoin d]
exact linesJoin_last (docLines d)

/-! ### Trimming lemmas -/

theorem dropWhile_length_le (p : Char → Bool) (l : List Char) :
    (l.dropWhile p).length ≤ l.length := by
induction l with
| nil => exact Nat.le_refl 0
| cons c t ih =>
  rw [List.dropWhile_cons]
  by_cases h : p c = true
  · rw [if_pos h]
    exact Nat.le_trans ih (Nat.le_succ _)
  · rw [if_neg h]

theorem head_not_ws_of_trimLeft_eq (k : Str) (c : Char) (t : Str)
    (h : trimLeft k = k) (hk : k = c :: t) : isWs c = false := by
subst hk
by_cases hc : isWs c = true
· exfalso
  unfold trimLeft at h
  rw [List.dropWhile_cons, if_pos hc] at h
  have hlen : (t.dropWhile isWs).length ≤ t.length := dropWhile_length_le isWs t
  rw [h] at hlen
  simp [List.length_cons] at hlen
· exact Bool.eq_false_iff.mpr hc

theorem trimLeft_cons_not_ws (c : Char) (t : Str) (h : isWs c = false) :
    trimLeft (c :: t) = c :: t := by
unfold trimLeft
rw [List.dropWhile_cons, h]
exact if_neg Bool.false_ne_true

theorem trimLeft_cons_ws (c : Char) (t : Str) (h : isWs c = true) :
    trimLeft (c :: t) = trimLeft t := by
unfold trimLeft
rw [List.dropWhile_cons, h]
simp

theorem trimRight_eq_iff (s : Str) : trimRight s = s ↔ trimLeft s.reverse = s.reverse := by
constructor
· intro h
  have := congrArg List.reverse h
  rwa [trimRight, List.reverse_reverse] at this
· intro h
  rw [trimRight, h, List.reverse_reverse]

theorem trim_eq_self (s : Str) (h1 : trimLeft s = s) (h2 : trimRight s = s) :
    trim s = s := by
rw [trim, h1, h2]

theorem trimLeft_append_of_head (c : Char) (t b : Str) (h : isWs c = false) :
    trimLeft ((c :: t) ++ b) = (c :: t) ++ b := by
rw [List.cons_append]
exact trimLeft_cons_not_ws c (t ++ b) h

theorem trimRight_append_of_last (a v : Str) (hv : trimRight v = v) (hne : v ≠ []) :
    trimRight (a ++ v) = a ++ v := by
rw [trimRight_eq_iff, List.reverse_append]
have hrev : trimLeft v.reverse = v.reverse := (trimRight_eq_iff v).mp hv
cases hr : v.reverse with
| nil =>
  exfalso
  have := congrArg List.reverse hr
  rw [List.reverse_reverse] at this
  exact hne this
| cons c t =>
  have hc : isWs c = false :=
    head_not_ws_of_trimLeft_eq v.reverse c t hrev hr
  exact trimLeft_append_of_head c t a.reverse hc

theorem trim_cons_ws (c : Char) (v : Str) (h : isWs c = true) :
    trim (c :: v) = trim v := by
unfold trim
rw [trimLeft_cons_ws c v h]

theorem trim_append_trailing_ws (k : Str) (c : Char) (hc : isWs c = true)
    (h1 : trimLeft k = k) (h2 : trimRight k = k) :
    trim (k ++ [c]) = k := by
cases k with
| nil =>
  show trim [c] = []
  unfold trim
  rw [trimLeft_cons_ws c [] hc]
  rfl
| cons a t =>
  have ha : isWs a = false := head_not_ws_of_trimLeft_eq (a :: t) a t h1 rfl
  unfold trim
  rw [trimLeft_append_of_head a t [c] ha]
  unfold trimRight
  rw [List.reverse_append]
  rw [show (([c] : Str).reverse ++ (a :: t).reverse : Str) = c :: (a :: t).reverse from rfl]
  rw [trimLeft_cons_ws c (a :: t).reverse hc]
  have h2' : trimLeft (a :: t).reverse = (a :: t).reverse := (trimRight_eq_iff (a :: t)).mp h2
  rw [h2', List.reverse_reverse]

theorem splitOnce_append (c : Char) (a b : Str) (h : c ∉ a) :
    splitOnce c (a ++ c :: b) = some (a, b) := by
induction a with
| nil =>
  rw [List.nil_append]
  unfold splitOnce
  rw [beq_self_eq_true]
  rfl
| cons x a' ih =>
  have hx : x ≠ c := fun he => h (he ▸ List.mem_cons_self x a')
  have h' : c ∉ a' := fun hm => h (List.mem_cons_of_mem x hm)
  rw [List.cons_append]
  unfold splitOnce
  rw [show (x == c) = false from beq_eq_false_iff_ne.mpr hx, if_neg (by simp), ih h']
  rfl

theorem trimRight_concat_ws (s : Str) (c : Char) (h : isWs c = true) :
    trimRight (s ++ [c]) = trimRight s := by
unfold trimRight
rw [List.reverse_append]
rw [show (([c] : Str).reverse ++ s.reverse : Str) = c :: s.reverse from rfl]
rw [trimLeft_cons_ws c s.reverse h]

theorem trimRight_concat_not_ws (s : Str) (c : Char) (h : isWs c = false) :
    trimRight (s ++ [c]) = s ++ [c] := by
unfold trimRight
rw [List.reverse_append]
rw [show (([c] : Str).reverse ++ s.reverse : Str) = c :: s.reverse from rfl]
rw [trimLeft_cons_not_ws c s.reverse h]
simp

/-- Decomposition of the trimmed serialized pair line `key = value`: it splits
as `kp ++ '=' :: vp` where `kp`/`vp` trim back to the key/value, `kp` has no
`=`, `kp` is empty exactly when the key is, and otherwise starts with the
key's first character. -/
theorem trim_kvline (k v : Str) (hk1 : trimLeft k = k) (hk2 : trimRight k = k)
    (hke : '=' ∉ k) (hv1 : trimLeft v = v) (hv2 : trimRight v = v) :
    ∃ kp vp, trim (kvline (k, v)) = kp ++ '=' :: vp ∧ '=' ∉ kp ∧
      trim kp = k ∧ trim vp = v ∧
      (k = [] → kp = []) ∧ (∀ c t, k = c :: t → ∃ u, kp = c :: u) := by
cases k with
| nil =>
  cases v with
  | nil =>
    refine ⟨[], [], by decide, by simp, rfl, rfl, fun _ => rfl, ?_⟩
    intro c t hct
    exact absurd hct (by simp)
  | cons b v' =>
    refine ⟨[], ' ' :: b :: v', ?_, by simp, rfl, ?_, fun _ => rfl, ?_⟩
    · show trim (([] : Str) ++ ' ' :: '=' :: ' ' :: b :: v') = [] ++ '=' :: ' ' :: b :: v'
      rw [show (([] : Str) ++ ' ' :: '=' :: ' ' :: b :: v') =
          ' ' :: '=' :: ' ' :: b :: v' from rfl]
      unfold trim
      rw [trimLeft_cons_ws _ _ (by decide), trimLeft_cons_not_ws _ _ (by decide)]
      rw [show ('=' :: ' ' :: b :: v' : Str) = ['=', ' '] ++ (b :: v') from rfl]
      rw [trimRight_append_of_last ['=', ' '] (b :: v') hv2 (by simp)]
      simp
    · rw [trim_cons_ws ' ' (b :: v') (by decide)]
      exact trim_eq_self (b :: v') hv1 hv2
    · intro c t hct
      exact absurd hct (by simp)
| cons a k' =>
  have ha : isWs a = false := head_not_ws_of_trimLeft_eq (a :: k') a k' hk1 rfl
  have hkp_mem : '=' ∉ (a :: k') ++ [' '] := by
    intro hm
    rcases List.mem_append.mp hm with hm1 | hm1
    · exact hke hm1
    · simp at hm1
  have hkp_trim : trim ((a :: k') ++ [' ']) = a :: k' :=
    trim_append_trailing_ws (a :: k') ' ' (by decide) hk1 hk2
  cases v with
  | nil =>
    refine ⟨(a :: k') ++ [' '], [], ?_, hkp_mem, hkp_trim, rfl, ?_, ?_⟩
    · show trim ((a :: k') ++ ' ' :: '=' :: ' ' :: []) = ((a :: k') ++ [' ']) ++ '=' :: []
      unfold trim
      rw [trimLeft_append_of_head a k' _ ha]
      rw [show ((a :: k') ++ ' ' :: '=' :: ' ' :: [] : Str) =
          (((a :: k') ++ [' ', '=']) ++ [' '] : Str) from by simp]
      rw [trimRight_concat_ws _ ' ' (by decide)]
      rw [show ((a :: k') ++ [' ', '='] : Str) = (((a :: k') ++ [' ']) ++ ['='] : Str) from by
        simp]
      rw [trimRight_concat_not_ws _ '=' (by decide)]
    · intro hct
      exact absurd hct (by simp)
    · intro c t hct
      refine ⟨k' ++ [' '], ?_⟩
      have hc : c = a := by
        injection hct with h1 h2
        rw [h1]
      rw [hc]
      simp
  | cons b v' =>
    refine ⟨(a :: k') ++ [' '], ' ' :: b :: v', ?_, hkp_mem, hkp_trim, ?_, ?_, ?_⟩
    · show trim ((a :: k') ++ ' ' :: '=' :: ' ' :: b :: v') =
        ((a :: k') ++ [' ']) ++ '=' :: ' ' :: b :: v'
      unfold trim
      rw [trimLeft_append_of_head a k' _ ha]
      rw [show ((a :: k') ++ ' ' :: '=' :: ' ' :: b :: v' : Str) =
          (((a :: k') ++ [' ', '=', ' ']) ++ (b :: v') : Str) from by simp]
      rw [trimRight_append_of_last _ (b :: v') hv2 (by simp)]
      simp
    · rw [trim_cons_ws ' ' (b :: v') (by decide)]
      exact trim_eq_self (b :: v') hv1 hv2
    · intro hct
      exact absurd hct (by simp)
    · intro c t hct
      refine ⟨k' ++ [' '], ?_⟩
      have hc : c = a := by
        injection hct with h1 h2
        rw [h1]
      rw [hc]
      simp

theorem goodKey_spec (k : Str) (h : goodKey k = true) :
    trimLeft k = k ∧ trimRight k = k ∧ '=' ∉ k ∧ '\n' ∉ k ∧
    ∀ c t, k = c :: t → c ≠ '#' ∧ c ≠ ';' ∧ c ≠ '[' := by
cases k with
| nil =>
  refine ⟨rfl, rfl, by simp, by simp, ?_⟩
  intro c t hct
  exact absurd hct (by simp)
| cons a t =>
  unfold goodKey at h
  simp only [Bool.and_eq_true, decide_eq_true_eq] at h
  obtain ⟨⟨⟨⟨h1, h2⟩, h3⟩, h4⟩, h5⟩ := h
  refine ⟨h1, h2, h3, h4, ?_⟩
  intro c u hct
  have hc : c = a := by
    injection hct with ha _
    rw [ha]
  subst hc
  simp only [Bool.not_eq_true', Bool.or_eq_false_iff, beq_eq_false_iff_ne] at h5
  exact ⟨h5.1.1, h5.1.2, h5.2⟩

theorem goodVal_spec (v : Str) (h : goodVal v = true) :
    trimLeft v = v ∧ trimRight v = v ∧ '\n' ∉ v := by
unfold goodVal at h
simp only [Bool.and_eq_true, decide_eq_true_eq] at h
exact ⟨h.1.1, h.1.2, h.2⟩

theorem comment_false_of_head (c : Char) (t : Str) (h1 : c ≠ '#') (h2 : c ≠ ';') :
    string_is_comment_or_empty (c :: t) = false := by
unfold string_is_comment_or_empty
simp [h1, h2]

theorem section_none_of_head (c : Char) (t : Str) (h : c ≠ '[') :
    string_is_section_start (c :: t) = none := by
rw [show string_is_section_start (c :: t) =
    if c == '[' && t.getLast? == some ']' then some t.dropLast else none from rfl]
rw [show (c == '[') = false from beq_eq_false_iff_ne.mpr h]
simp

/-- The three facts the parser needs about a serialized pair line built from a
good key and a good value: it is not a comment, not a section header, and
parses back to exactly the original pair. -/
theorem kvline_step (k v : Str) (hk : goodKey k = true) (hv : goodVal v = true) :
    string_is_comment_or_empty (trim (kvline (k, v))) = false ∧
    string_is_section_start (trim (kvline (k, v))) = none ∧
    parse_k_v (trim (kvline (k, v))) = some (k, v) := by
obtain ⟨hk1, hk2, hke, -, hkh⟩ := goodKey_spec k hk
obtain ⟨hv1, hv2, -⟩ := goodVal_spec v hv
obtain ⟨kp, vp, heq, hkpe, hkpt, hvpt, hnil, hcons⟩ :=
  trim_kvline k v hk1 hk2 hke hv1 hv2
have hsplit : splitOnce '=' (kp ++ '=' :: vp) = some (kp, vp) :=
  splitOnce_append '=' kp vp hkpe
have hparse : parse_k_v (trim (kvline (k, v))) = some (k, v) := by
  rw [heq]
  unfold parse_k_v
  rw [hsplit]
  simp [hkpt, hvpt]
refine ⟨?_, ?_, hparse⟩
· rw [heq]
  cases hkcase : k with
  | nil =>
    rw [hnil hkcase]
    exact comment_false_of_head '=' vp (by decide) (by decide)
  | cons c t =>
    obtain ⟨u, hu⟩ := hcons c t hkcase
    rw [hu]
    obtain ⟨hc1, hc2, -⟩ := hkh c t hkcase
    exact comment_false_of_head c (u ++ '=' :: vp) hc1 hc2
· rw [heq]
  cases hkcase : k with
  | nil =>
    rw [hnil hkcase]
    exact section_none_of_head '=' vp (by decide)
  | cons c t =>
    obtain ⟨u, hu⟩ := hcons c t hkcase
    rw [hu]
    obtain ⟨-, -, hc3⟩ := hkh c t hkcase
    exact section_none_of_head c (u ++ '=' :: vp) hc3

theorem splitLines_append (a b : Str) (h : '\n' ∉ a) :
    splitLines (a ++ '\n' :: b) = a :: splitLines b := by
induction a with
| nil =>
  rw [List.nil_append]
  rw [show splitLines ('\n' :: b) =
      if ('\n' == '\n') = true then [] :: splitLines b
      else match splitLines b with
        | [] => [['\n']]
        | l :: ls => ('\n' :: l) :: ls from rfl]
  simp
| cons c a' ih =>
  have hc : c ≠ '\n' := fun he => h (he ▸ List.mem_cons_self c a')
  have h' : '\n' ∉ a' := fun hm => h (List.mem_cons_of_mem c hm)
  rw [List.cons_append]
  rw [show splitLines (c :: (a' ++ '\n' :: b)) =
      if (c == '\n') = true then [] :: splitLines (a' ++ '\n' :: b)
      else match splitLines (a' ++ '\n' :: b) with
        | [] => [[c]]
        | l :: ls => (c :: l) :: ls from rfl]
  rw [show (c == '\n') = false from beq_eq_false_iff_ne.mpr hc]
  rw [ih h']
  simp

theorem splitLines_linesJoin (ls : List Str) (h : ∀ l ∈ ls, '\n' ∉ l) :
    splitLines (linesJoin ls) = ls ++ [[]] := by
induction ls with
| nil => rfl
| cons l ls ih =>
  rw [show linesJoin (l :: ls) = l ++ '\n' :: linesJoin ls from rfl]
  rw [splitLines_append l (linesJoin ls) (h l (List.mem_cons_self l ls))]
  rw [ih (fun x hx => h x (List.mem_cons_of_mem l hx))]
  rfl

theorem processLines_final (n : Nat) (cur : Str) (doc : Doc) :
    processLines [[]] n cur doc = Except.ok doc := by
rw [processLines_cons_comment [] n cur doc (by decide)]
rfl

theorem processLines_kvLines (ps : Sect) (rest : List Str) (n : Nat) (cur : Str)
    (doc : Doc) (h : ∀ q ∈ ps, goodKey q.1 = true ∧ goodVal q.2 = true) :
    ∃ m, processLines (kvLines ps ++ rest) n cur doc =
      processLines rest m cur (insertAll ps cur doc) := by
induction ps generalizing n doc with
| nil => exact ⟨n, by simp [kvLines, insertAll]⟩
| cons q ps' ih =>
  obtain ⟨qk, qv⟩ := q
  have hq := h (qk, qv) (List.mem_cons_self _ _)
  have h' : ∀ r ∈ ps', goodKey r.1 = true ∧ goodVal r.2 = true :=
    fun r hr => h r (List.mem_cons_of_mem _ hr)
  obtain ⟨hcf, hsn, hpv⟩ := kvline_step qk qv hq.1 hq.2
  rw [show kvLines ((qk, qv) :: ps') ++ rest =
      kvline (qk, qv) :: (kvLines ps' ++ rest) from by simp [kvLines]]
  rw [processLines_cons_kv (kvLines ps' ++ rest) n cur doc hcf hsn hpv]
  obtain ⟨m, heq⟩ := ih (n + 1) (insert qk qv cur doc).2 h'
  exact ⟨m, heq⟩

theorem header_facts (name : Str) :
    trim ('[' :: name ++ [']']) = '[' :: name ++ [']'] ∧
    string_is_comment_or_empty ('[' :: name ++ [']']) = false ∧
    string_is_section_start ('[' :: name ++ [']']) = some name := by
refine ⟨?_, ?_, ?_⟩
· unfold trim
  rw [show ('[' :: name ++ [']'] : Str) = '[' :: (name ++ [']']) from rfl]
  rw [trimLeft_cons_not_ws '[' (name ++ [']']) (by decide)]
  rw [show ('[' :: (name ++ [']']) : Str) = ('[' :: name) ++ [']'] from rfl]
  exact trimRight_concat_not_ws ('[' :: name) ']' (by decide)
· exact comment_false_of_head '[' (name ++ [']']) (by decide) (by decide)
· rw [show string_is_section_start ('[' :: name ++ [']']) =
      if '[' == '[' && (name ++ [']']).getLast? == some ']'
      then some (name ++ [']']).dropLast else none from rfl]
  rw [List.getLast?_concat name]
  rw [show (('[' == '[') && (some ']' == some ']')) = true from by decide]
  rw [if_pos rfl, List.dropLast_concat]

theorem processLines_sections (ds : Doc) (rest : List Str) (n : Nat) (cur : Str)
    (doc : Doc) (h : ∀ p ∈ ds, ∀ q ∈ p.2, goodKey q.1 = true ∧ goodVal q.2 = true) :
    ∃ m cur', processLines (sectionLines ds ++ rest) n cur doc =
      processLines rest m cur' (buildTail ds doc) := by
induction ds generalizing n cur doc with
| nil => exact ⟨n, cur, by simp [sectionLines, buildTail]⟩
| cons p ds' ih =>
  have h' : ∀ r ∈ ds', ∀ q ∈ r.2, goodKey q.1 = true ∧ goodVal q.2 = true :=
    fun r hr => h r (List.mem_cons_of_mem p hr)
  by_cases hp : p.1 = []
  · rw [show sectionLines (p :: ds') = sectionLines ds' from by
      rw [sectionLines, if_pos hp]]
    rw [show buildTail (p :: ds') doc = buildTail ds' doc from by
      rw [buildTail, if_pos hp]]
    exact ih n cur doc h'
  · obtain ⟨htr, hcf, hss⟩ := header_facts p.1
    rw [show sectionLines (p :: ds') ++ rest =
        ('[' :: p.1 ++ [']']) :: (kvLines p.2 ++ (sectionLines ds' ++ rest)) from by
      rw [sectionLines, if_neg hp]
      simp]
    rw [processLines_cons_section (kvLines p.2 ++ (sectionLines ds' ++ rest)) n cur doc
      (by rw [htr]; exact hcf) (by rw [htr]; exact hss) hp]
    obtain ⟨m1, heq1⟩ := processLines_kvLines p.2 (sectionLines ds' ++ rest) (n + 1) p.1
      doc (h p (List.mem_cons_self p ds'))
    rw [heq1]
    obtain ⟨m2, cur', heq2⟩ := ih m1 p.1 (insertAll p.2 p.1 doc) h'
    rw [heq2]
    exact ⟨m2, cur', by rw [show buildTail (p :: ds') doc =
      buildTail ds' (insertAll p.2 p.1 doc) from by rw [buildTail, if_neg hp]]⟩

theorem alookup_mem {α : Type} (x : Str) (l : List (Str × α)) (s : α)
    (h : alookup x l = some s) : (x, s) ∈ l := by
induction l with
| nil => exact absurd h (by simp [alookup])
| cons p rest ih =>
  rw [show alookup x (p :: rest) = if p.1 = x then some p.2 else alookup x rest from rfl]
    at h
  by_cases hp : p.1 = x
  · rw [if_pos hp] at h
    have hs : s = p.2 := by
      injection h with h2
      rw [h2]
    rw [hs, ← hp]
    exact List.mem_cons_self (p.1, p.2) rest
  · rw [if_neg hp] at h
    exact List.mem_cons_of_mem p (ih h)

theorem kvline_no_newline (q : Str × Str) (hk : goodKey q.1 = true)
    (hv : goodVal q.2 = true) : '\n' ∉ kvline q := by
obtain ⟨-, -, -, hkn, -⟩ := goodKey_spec q.1 hk
obtain ⟨-, -, hvn⟩ := goodVal_spec q.2 hv
intro hm
unfold kvline at hm
rcases List.mem_append.mp hm with h1 | h1
· exact hkn h1
· rcases List.mem_cons.mp h1 with h2 | h2
  · exact absurd h2 (by decide)
  · rcases List.mem_cons.mp h2 with h3 | h3
    · exact absurd h3 (by decide)
    · rcases List.mem_cons.mp h3 with h4 | h4
      · exact absurd h4 (by decide)
      · exact hvn h4

theorem mem_sectionLines (l : Str) (ds : Doc) (h : l ∈ sectionLines ds) :
    (∃ p ∈ ds, p.1 ≠ [] ∧ l = '[' :: p.1 ++ [']']) ∨
    (∃ p ∈ ds, ∃ q ∈ p.2, l = kvline q) := by
induction ds with
| nil => exact absurd h (by simp [sectionLines])
| cons p ds' ih =>
  by_cases hp : p.1 = []
  · rw [show sectionLines (p :: ds') = sectionLines ds' from by
      rw [sectionLines, if_pos hp]] at h
    rcases ih h with ⟨r, hr, hne, he⟩ | ⟨r, hr, q, hq, he⟩
    · exact Or.inl ⟨r, List.mem_cons_of_mem p hr, hne, he⟩
    · exact Or.inr ⟨r, List.mem_cons_of_mem p hr, q, hq, he⟩
  · rw [show sectionLines (p :: ds') =
        ('[' :: p.1 ++ [']']) :: (kvLines p.2 ++ sectionLines ds') from by
      rw [sectionLines, if_neg hp]] at h
    rcases List.mem_cons.mp h with he | hm
    · exact Or.inl ⟨p, List.mem_cons_self p ds', hp, he⟩
    · rcases List.mem_append.mp hm with h1 | h1
      · obtain ⟨q, hq, he⟩ := List.mem_map.mp h1
        exact Or.inr ⟨p, List.mem_cons_self p ds', q, hq, he.symm⟩
      · rcases ih h1 with ⟨r, hr, hne, he⟩ | ⟨r, hr, q, hq, he⟩
        · exact Or.inl ⟨r, List.mem_cons_of_mem p hr, hne, he⟩
        · exact Or.inr ⟨r, List.mem_cons_of_mem p hr, q, hq, he⟩

theorem docLines_no_newline (d : Doc) (h : docWF d) :
    ∀ l ∈ docLines d, '\n' ∉ l := by
intro l hl
unfold docLines at hl
rcases List.mem_append.mp hl with h1 | h1
· cases hal : alookup [] d with
  | none =>
    rw [hal] at h1
    exact absurd h1 (by simp)
  | some s =>
    rw [hal] at h1
    obtain ⟨q, hq, he⟩ := List.mem_map.mp h1
    have hmem := alookup_mem [] d s hal
    have hgood := (h.2 ([], s) hmem).2.2 q hq
    rw [← he]
    exact kvline_no_newline q hgood.1 hgood.2
· rcases mem_sectionLines l d h1 with ⟨p, hp, hne, he⟩ | ⟨p, hp, q, hq, he⟩
  · have hgn : goodName p.1 = true := (h.2 p hp).2.1
    have hnn : '\n' ∉ p.1 := by
      unfold goodName at hgn
      exact of_decide_eq_true hgn
    rw [he]
    intro hm
    rcases List.mem_cons.mp hm with h2 | h2
    · exact absurd h2 (by decide)
    · rcases List.mem_append.mp h2 with h3 | h3
      · exact hnn h3
      · exact absurd h3 (by decide)
  · have hgood := (h.2 p hp).2.2 q hq
    rw [he]
    exact kvline_no_newline q hgood.1 hgood.2

/-- Parsing the serialized form of a well-formed document replays the unnamed
section first and then every named section. -/
theorem from_string_to_string (d : Doc) (h : docWF d) :
    from_string (to_string d) = Except.ok
      (buildTail d (match alookup [] d with
        | some s => insertAll s [] empty
        | none => empty)) := by
unfold from_string
rw [to_string_eq_linesJoin, splitLines_linesJoin (docLines d) (docLines_no_newline d h)]
unfold docLines
have hsect : ∀ p ∈ d, ∀ q ∈ p.2, goodKey q.1 = true ∧ goodVal q.2 = true :=
  fun p hp => (h.2 p hp).2.2
cases hal : alookup [] d with
| none =>
  rw [show ((([] : List Str) ++ sectionLines d) ++ [[]] : List Str) =
      sectionLines d ++ [[]] from by simp]
  obtain ⟨m, cur', heq⟩ := processLines_sections d [[]] 0 [] empty hsect
  rw [heq, processLines_final]
| some s =>
  rw [show ((kvLines s ++ sectionLines d) ++ [[]] : List Str) =
      kvLines s ++ (sectionLines d ++ [[]]) from by simp]
  have hmem := alookup_mem [] d s hal
  obtain ⟨m1, heq1⟩ := processLines_kvLines s (sectionLines d ++ [[]]) 0 [] empty
    (fun q hq => (h.2 ([], s) hmem).2.2 q hq)
  rw [heq1]
  obtain ⟨m2, cur', heq2⟩ := processLines_sections d [[]] m1 [] (insertAll s [] empty)
    hsect
  rw [heq2, processLines_final]

/-! ### The rebuilt document, section by section -/

theorem alookup_append {α : Type} (x : Str) (a b : List (Str × α)) :
    alookup x (a ++ b) =
      match alookup x a with
      | some v => some v
      | none => alookup x b := by
induction a with
| nil => rfl
| cons p rest ih =>
  rw [List.cons_append]
  rw [show alookup x (p :: (rest ++ b)) =
      if p.1 = x then some p.2 else alookup x (rest ++ b) from rfl]
  rw [show alookup x (p :: rest) = if p.1 = x then some p.2 else alookup x rest from rfl]
  by_cases hp : p.1 = x
  · rw [if_pos hp, if_pos hp]
  · rw [if_neg hp, if_neg hp, ih]

theorem hmInsert_new (k v : Str) (s : Sect) (h : alookup k s = none) :
    hmInsert k v s = (none, s ++ [(k, v)]) := by
induction s with
| nil => rfl
| cons p rest ih =>
  rw [show alookup k (p :: rest) = if p.1 = k then some p.2 else alookup k rest from rfl]
    at h
  by_cases hp : p.1 = k
  · rw [if_pos hp] at h
    exact absurd h (by simp)
  · rw [if_neg hp] at h
    rw [show hmInsert k v (p :: rest) =
        ((hmInsert k v rest).1, p :: (hmInsert k v rest).2) from by
      rw [hmInsert, if_neg hp]]
    rw [ih h]
    simp

theorem insert_append_found (k v sec : Str) (d : Doc) (acc : Sect)
    (h : alookup sec d = none) :
    (insert k v sec (d ++ [(sec, acc)])).2 = d ++ [(sec, (hmInsert k v acc).2)] := by
induction d with
| nil =>
  rw [List.nil_append, List.nil_append]
  rw [show insert k v sec [(sec, acc)] =
      ((hmInsert k v acc).1, (sec, (hmInsert k v acc).2) :: []) from by
    rw [insert, if_pos rfl]]
| cons p rest ih =>
  rw [show alookup sec (p :: rest) =
      if p.1 = sec then some p.2 else alookup sec rest from rfl] at h
  by_cases hp : p.1 = sec
  · rw [if_pos hp] at h
    exact absurd h (by simp)
  · rw [if_neg hp] at h
    rw [List.cons_append]
    rw [show insert k v sec (p :: (rest ++ [(sec, acc)])) =
        ((insert k v sec (rest ++ [(sec, acc)])).1,
          p :: (insert k v sec (rest ++ [(sec, acc)])).2) from by
      rw [insert, if_neg hp]]
    rw [show ((insert k v sec (rest ++ [(sec, acc)])).1,
        p :: (insert k v sec (rest ++ [(sec, acc)])).2).2 =
        p :: (insert k v sec (rest ++ [(sec, acc)])).2 from rfl]
    rw [ih h, List.cons_append]

theorem insertAll_go (ps : Sect) (sec : Str) (d : Doc) (acc : Sect)
    (h : alookup sec d = none) (hnd : ((acc ++ ps).map Prod.fst).Nodup) :
    insertAll ps sec (d ++ [(sec, acc)]) = d ++ [(sec, acc ++ ps)] := by
induction ps generalizing acc with
| nil => simp [insertAll]
| cons q ps' ih =>
  obtain ⟨qk, qv⟩ := q
  have hq : alookup qk acc = none := by
    apply alookup_eq_none_of_not_mem
    intro hmem
    rw [List.map_append] at hnd
    have hdisj := (List.nodup_append.mp hnd).2.2
    exact hdisj hmem (by simp)
  have step : (insert qk qv sec (d ++ [(sec, acc)])).2 =
      d ++ [(sec, acc ++ [(qk, qv)])] := by
    rw [insert_append_found qk qv sec d acc h, hmInsert_new qk qv acc hq]
  rw [show insertAll ((qk, qv) :: ps') sec (d ++ [(sec, acc)]) =
      insertAll ps' sec (insert qk qv sec (d ++ [(sec, acc)])).2 from rfl]
  rw [step]
  rw [ih (acc ++ [(qk, qv)]) (by rwa [show ((acc ++ [(qk, qv)]) ++ ps' : Sect) =
    acc ++ ((qk, qv) :: ps') from by simp])]
  simp

theorem insertAll_fresh (ps : Sect) (sec : Str) (d : Doc)
    (h : alookup sec d = none) (hnd : (ps.map Prod.fst).Nodup) (hne : ps ≠ []) :
    insertAll ps sec d = d ++ [(sec, ps)] := by
cases ps with
| nil => exact absurd rfl hne
| cons q ps' =>
  obtain ⟨qk, qv⟩ := q
  rw [show insertAll ((qk, qv) :: ps') sec d =
      insertAll ps' sec (insert qk qv sec d).2 from rfl]
  rw [insert_of_not_mem qk qv sec d h]
  rw [show (none, d ++ [(sec, [(qk, qv)])]).2 = d ++ [(sec, [(qk, qv)])] from rfl]
  rw [insertAll_go ps' sec d [(qk, qv)] h (by simpa using hnd)]
  simp

theorem buildTail_spec (ds : Doc) (start : Doc)
    (hnames : (ds.map Prod.fst).Nodup)
    (hkeys : ∀ p ∈ ds, (p.2.map Prod.fst).Nodup)
    (hfresh : ∀ p ∈ ds, p.1 ≠ [] → alookup p.1 start = none) :
    buildTail ds start = start ++ ds.filter keepSect := by
induction ds generalizing start with
| nil => simp [buildTail]
| cons p ds' ih =>
  obtain ⟨pn, ps⟩ := p
  rw [List.map_cons, List.nodup_cons] at hnames
  have hkeys' : ∀ r ∈ ds', (r.2.map Prod.fst).Nodup :=
    fun r hr => hkeys r (List.mem_cons_of_mem _ hr)
  by_cases hp : pn = []
  · rw [show buildTail ((pn, ps) :: ds') start = buildTail ds' start from by
      rw [buildTail, if_pos hp]]
    rw [show List.filter keepSect ((pn, ps) :: ds') = List.filter keepSect ds' from by
      rw [List.filter_cons]
      rw [show keepSect (pn, ps) = false from by
        unfold keepSect
        rw [hp]
        rfl]
      simp]
    exact ih start hnames.2 hkeys'
      (fun r hr h1 => hfresh r (List.mem_cons_of_mem _ hr) h1)
  · by_cases hq : ps = []
    · rw [show buildTail ((pn, ps) :: ds') start =
          buildTail ds' (insertAll ps pn start) from by
        rw [buildTail, if_neg hp]]
      rw [show insertAll ps pn start = start from by rw [hq]; rfl]
      rw [show List.filter keepSect ((pn, ps) :: ds') = List.filter keepSect ds' from by
        rw [List.filter_cons]
        rw [show keepSect (pn, ps) = false from by
          unfold keepSect
          rw [hq]
          simp]
        simp]
      exact ih start hnames.2 hkeys'
        (fun r hr h1 => hfresh r (List.mem_cons_of_mem _ hr) h1)
    · rw [show buildTail ((pn, ps) :: ds') start =
          buildTail ds' (insertAll ps pn start) from by
        rw [buildTail, if_neg hp]]
      have hfr : alookup pn start = none :=
        hfresh (pn, ps) (List.mem_cons_self _ _) hp
      have hknd : (ps.map Prod.fst).Nodup := hkeys (pn, ps) (List.mem_cons_self _ _)
      rw [insertAll_fresh ps pn start hfr hknd hq]
      rw [ih (start ++ [(pn, ps)]) hnames.2 hkeys' ?_]
      · rw [show List.filter keepSect ((pn, ps) :: ds') =
            (pn, ps) :: List.filter keepSect ds' from by
          rw [List.filter_cons]
          rw [show keepSect (pn, ps) = true from by
            unfold keepSect
            cases pn with
            | nil => exact absurd rfl hp
            | cons a t =>
              cases ps with
              | nil => exact absurd rfl hq
              | cons b u => rfl]
          simp]
        simp
      · intro r hr h1
        rw [alookup_append]
        rw [hfresh r (List.mem_cons_of_mem _ hr) h1]
        have hrn : r.1 ≠ pn := by
          intro he
          exact hnames.1 (he ▸ (List.mem_map.mpr ⟨r, hr, rfl⟩))
        rw [show alookup r.1 [(pn, ps)] = none from by
          rw [show alookup r.1 [(pn, ps)] =
              if pn = r.1 then some ps else none from rfl]
          rw [if_neg (fun he => hrn he.symm)]]

/-! ### Well-formedness is preserved by insert -/

theorem hmInsert_keys (k v : Str) (s : Sect) :
    ((hmInsert k v s).2.map Prod.fst) =
      if (alookup k s).isSome = true then s.map Prod.fst else s.map Prod.fst ++ [k] := by
induction s with
| nil => simp [hmInsert, alookup]
| cons p rest ih =>
  by_cases hp : p.1 = k
  · rw [show (hmInsert k v (p :: rest)).2 = (k, v) :: rest from by
      rw [hmInsert, if_pos hp]]
    rw [show alookup k (p :: rest) = some p.2 from by
      rw [show alookup k (p :: rest) = if p.1 = k then some p.2 else alookup k rest
        from rfl, if_pos hp]]
    simp [hp]
  · rw [show (hmInsert k v (p :: rest)).2 = p :: (hmInsert k v rest).2 from by
      simp [hmInsert, hp]]
    rw [show alookup k (p :: rest) = alookup k rest from by
      rw [show alookup k (p :: rest) = if p.1 = k then some p.2 else alookup k rest
        from rfl, if_neg hp]]
    rw [List.map_cons, ih]
    by_cases hsome : (alookup k rest).isSome = true
    · rw [if_pos hsome, if_pos hsome, List.map_cons]
    · rw [if_neg hsome, if_neg hsome, List.map_cons, List.cons_append]

theorem hmInsert_mem (k v : Str) (s : Sect) (q : Str × Str)
    (h : q ∈ (hmInsert k v s).2) : q = (k, v) ∨ q ∈ s := by
induction s with
| nil =>
  rcases List.mem_singleton.mp (by simpa [hmInsert] using h) with he
  exact Or.inl he
| cons p rest ih =>
  by_cases hp : p.1 = k
  · rw [show (hmInsert k v (p :: rest)).2 = (k, v) :: rest from by
      rw [hmInsert, if_pos hp]] at h
    rcases List.mem_cons.mp h with he | hm
    · exact Or.inl he
    · exact Or.inr (List.mem_cons_of_mem p hm)
  · rw [show (hmInsert k v (p :: rest)).2 = p :: (hmInsert k v rest).2 from by
      simp [hmInsert, hp]] at h
    rcases List.mem_cons.mp h with he | hm
    · exact Or.inr (he ▸ List.mem_cons_self p rest)
    · rcases ih hm with he | hm2
      · exact Or.inl he
      · exact Or.inr (List.mem_cons_of_mem p hm2)

theorem hmInsert_nodup (k v : Str) (s : Sect) (h : (s.map Prod.fst).Nodup) :
    ((hmInsert k v s).2.map Prod.fst).Nodup := by
rw [hmInsert_keys]
by_cases hsome : (alookup k s).isSome = true
· rw [if_pos hsome]
  exact h
· rw [if_neg hsome]
  have hnm : k ∉ s.map Prod.fst := fun hm => hsome ((alookup_isSome_iff k s).mpr hm)
  simp [List.nodup_append, h, hnm]

theorem insert_names (k v sec : Str) (d : Doc) :
    ((insert k v sec d).2.map Prod.fst) =
      if (alookup sec d).isSome = true then d.map Prod.fst
      else d.map Prod.fst ++ [sec] := by
induction d with
| nil => simp [insert, alookup]
| cons p rest ih =>
  by_cases hp : p.1 = sec
  · rw [show (insert k v sec (p :: rest)).2 = (p.1, (hmInsert k v p.2).2) :: rest from by
      simp [insert, hp]]
    rw [show alookup sec (p :: rest) = some p.2 from by
      rw [show alookup sec (p :: rest) = if p.1 = sec then some p.2 else alookup sec rest
        from rfl, if_pos hp]]
    simp
  · rw [show (insert k v sec (p :: rest)).2 = p :: (insert k v sec rest).2 from by
      simp [insert, hp]]
    rw [show alookup sec (p :: rest) = alookup sec rest from by
      rw [show alookup sec (p :: rest) = if p.1 = sec then some p.2 else alookup sec rest
        from rfl, if_neg hp]]
    rw [List.map_cons, ih]
    by_cases hsome : (alookup sec rest).isSome = true
    · rw [if_pos hsome, if_pos hsome, List.map_cons]
    · rw [if_neg hsome, if_neg hsome, List.map_cons, List.cons_append]

theorem docWF_insert (d : Doc) (k v sec : Str) (hd : docWF d)
    (hk : goodKey k = true) (hv : goodVal v = true) (hn : goodName sec = true) :
    docWF (insert k v sec d).2 := by
induction d with
| nil =>
  refine ⟨by simp [insert], ?_⟩
  intro p hp
  have hp' : p = (sec, [(k, v)]) := List.mem_singleton.mp (by simpa [insert] using hp)
  rw [hp']
  refine ⟨by simp, hn, ?_⟩
  intro q hq
  have hq' : q = (k, v) := List.mem_singleton.mp hq
  rw [hq']
  exact ⟨hk, hv⟩
| cons p rest ih =>
  obtain ⟨hnd, hprops⟩ := hd
  rw [List.map_cons, List.nodup_cons] at hnd
  have hdrest : docWF rest := ⟨hnd.2, fun r hr => hprops r (List.mem_cons_of_mem p hr)⟩
  have hih := ih hdrest
  by_cases hp : p.1 = sec
  · rw [show (insert k v sec (p :: rest)).2 = (p.1, (hmInsert k v p.2).2) :: rest from by
      simp [insert, hp]]
    obtain ⟨hpnd, hpgn, hpq⟩ := hprops p (List.mem_cons_self p rest)
    refine ⟨?_, ?_⟩
    · rw [List.map_cons]
      exact List.nodup_cons.mpr ⟨hnd.1, hnd.2⟩
    · intro r hr
      rcases List.mem_cons.mp hr with he | hm
      · rw [he]
        refine ⟨hmInsert_nodup k v p.2 hpnd, hpgn, ?_⟩
        intro q hq
        rcases hmInsert_mem k v p.2 q hq with he2 | hm2
        · rw [he2]
          exact ⟨hk, hv⟩
        · exact hpq q hm2
      · exact hprops r (List.mem_cons_of_mem p hm)
  · rw [show (insert k v sec (p :: rest)).2 = p :: (insert k v sec rest).2 from by
      simp [insert, hp]]
    refine ⟨?_, ?_⟩
    · rw [List.map_cons, List.nodup_cons]
      refine ⟨?_, hih.1⟩
      rw [insert_names k v sec rest]
      by_cases hsome : (alookup sec rest).isSome = true
      · rw [if_pos hsome]
        exact hnd.1
      · rw [if_neg hsome]
        intro hm
        rcases List.mem_append.mp hm with h1 | h1
        · exact hnd.1 h1
        · exact hp (List.mem_singleton.mp h1)
    · intro r hr
      rcases List.mem_cons.mp hr with he | hm
      · exact he ▸ hprops p (List.mem_cons_self p rest)
      · exact hih.2 r hm

theorem docWF_empty : docWF empty :=
  ⟨List.nodup_nil, fun p hp => absurd hp (List.not_mem_nil p)⟩

theorem docWF_foldl (ops : List (Str × Str × Str)) (d : Doc) (hd : docWF d)
    (hops : ∀ op ∈ ops, goodKey op.1 = true ∧ goodVal op.2.1 = true ∧
      goodName op.2.2 = true) :
    docWF (ops.foldl (fun d op => (insert op.1 op.2.1 op.2.2 d).2) d) := by
induction ops generalizing d with
| nil => exact hd
| cons op ops' ih =>
  have hop := hops op (List.mem_cons_self op ops')
  exact ih ((insert op.1 op.2.1 op.2.2 d).2)
    (docWF_insert d op.1 op.2.1 op.2.2 hd hop.1 hop.2.1 hop.2.2)
    (fun r hr => hops r (List.mem_cons_of_mem op hr))

theorem docWF_buildDoc (ops : List (Str × Str × Str))
    (hops : ∀ op ∈ ops, goodKey op.1 = true ∧ goodVal op.2.1 = true ∧
      goodName op.2.2 = true) :
    docWF (buildDoc ops) :=
  docWF_foldl ops empty docWF_empty hops

/-! ### Round-trip lookup equivalence -/

theorem keepSect_eq_false (sec : Str) (s : Sect) (h : keepSect (sec, s) = false) :
    sec = [] ∨ s = [] := by
cases sec with
| nil => exact Or.inl rfl
| cons a t =>
  cases s with
  | nil => exact Or.inr rfl
  | cons b u => exact absurd h (by simp [keepSect])

theorem alookup_filter_keep (d : Doc) (sec : Str) :
    (d.map Prod.fst).Nodup →
    alookup sec (d.filter keepSect) =
      match alookup sec d with
      | none => none
      | some s => if keepSect (sec, s) = true then some s else none := by
induction d with
| nil => intro; rfl
| cons p rest ih =>
  intro hnd
  rw [List.map_cons, List.nodup_cons] at hnd
  obtain ⟨pn, ps⟩ := p
  rw [List.filter_cons]
  by_cases hps : pn = sec
  · subst hps
    rw [show alookup pn ((pn, ps) :: rest) = some ps from by
      rw [show alookup pn ((pn, ps) :: rest) =
          if (pn, ps).1 = pn then some (pn, ps).2 else alookup pn rest from rfl]
      rw [if_pos rfl]]
    by_cases hkp : keepSect (pn, ps) = true
    · rw [if_pos hkp]
      rw [show alookup pn ((pn, ps) :: List.filter keepSect rest) = some ps from by
        rw [show alookup pn ((pn, ps) :: List.filter keepSect rest) =
            if (pn, ps).1 = pn then some (pn, ps).2
            else alookup pn (List.filter keepSect rest) from rfl]
        rw [if_pos rfl]]
      simp [hkp]
    · rw [if_neg hkp]
      have hnone : alookup pn (List.filter keepSect rest) = none := by
        apply alookup_eq_none_of_not_mem
        intro hm
        obtain ⟨r, hr, hre⟩ := List.mem_map.mp hm
        exact hnd.1 (List.mem_map.mpr ⟨r, (List.mem_filter.mp hr).1, hre⟩)
      rw [hnone]
      simp [Bool.eq_false_iff.mpr hkp]
  · rw [show alookup sec ((pn, ps) :: rest) = alookup sec rest from by
      rw [show alookup sec ((pn, ps) :: rest) =
          if (pn, ps).1 = sec then some (pn, ps).2 else alookup sec rest from rfl]
      rw [if_neg hps]]
    by_cases hkp : keepSect (pn, ps) = true
    · rw [if_pos hkp]
      rw [show alookup sec ((pn, ps) :: List.filter keepSect rest) =
          alookup sec (List.filter keepSect rest) from by
        rw [show alookup sec ((pn, ps) :: List.filter keepSect rest) =
            if (pn, ps).1 = sec then some (pn, ps).2
            else alookup sec (List.filter keepSect rest) from rfl]
        rw [if_neg hps]]
      exact ih hnd.2
    · rw [if_neg hkp]
      exact ih hnd.2

theorem get_roundtrip (d : Doc) (h : docWF d) (k sec : Str) :
    get k sec (buildTail d (match alookup [] d with
      | some s => insertAll s [] empty
      | none => empty)) = get k sec d := by
have hkeys : ∀ p ∈ d, (p.2.map Prod.fst).Nodup := fun p hp => (h.2 p hp).1
have hfresh_nil : ∀ p ∈ d, p.1 ≠ [] → alookup p.1 ([] : Doc) = none :=
  fun _ _ _ => rfl
have hfilter : (sec = [] → alookup [] d = none ∨ alookup [] d = some []) →
    get k sec (List.filter keepSect d) = get k sec d := by
  intro hne
  unfold get
  rw [alookup_filter_keep d sec h.1]
  cases has : alookup sec d with
  | none => rfl
  | some s =>
    by_cases hkp : keepSect (sec, s) = true
    · simp [hkp]
    · rcases keepSect_eq_false sec s (Bool.eq_false_iff.mpr hkp) with he | he
      · subst he
        rcases hne rfl with h0 | h0
        · rw [has] at h0
          exact absurd h0 (by simp)
        · rw [has] at h0
          have hs : s = [] := by injection h0
          subst hs
          simp [Bool.eq_false_iff.mpr hkp, alookup]
      · subst he
        simp [Bool.eq_false_iff.mpr hkp, alookup]
cases hal : alookup [] d with
| none =>
  rw [show buildTail d (match (none : Option Sect) with
      | some s => insertAll s [] empty
      | none => empty) = buildTail d ([] : Doc) from rfl]
  rw [buildTail_spec d [] h.1 hkeys hfresh_nil, List.nil_append]
  exact hfilter (fun _ => Or.inl hal)
| some s0 =>
  by_cases hs0 : s0 = []
  · rw [show buildTail d (match (some s0 : Option Sect) with
        | some s => insertAll s [] empty
        | none => empty) = buildTail d (insertAll s0 [] empty) from rfl]
    rw [show insertAll s0 [] empty = ([] : Doc) from by rw [hs0]; rfl]
    rw [buildTail_spec d [] h.1 hkeys hfresh_nil, List.nil_append]
    exact hfilter (fun _ => Or.inr (hs0 ▸ hal))
  · have hstart : insertAll s0 [] empty = [(([] : Str), s0)] := by
      have hmem := alookup_mem [] d s0 hal
      have hnd0 : (s0.map Prod.fst).Nodup := (h.2 ([], s0) hmem).1
      rw [show (empty : Doc) = ([] : Doc) from rfl]
      rw [insertAll_fresh s0 [] [] rfl hnd0 hs0]
      rfl
    have hfresh_one : ∀ p ∈ d, p.1 ≠ [] → alookup p.1 [(([] : Str), s0)] = none := by
      intro p hp h1
      rw [show alookup p.1 [(([] : Str), s0)] =
          if ([] : Str) = p.1 then some s0 else none from rfl]
      rw [if_neg (fun he => h1 he.symm)]
    rw [show buildTail d (match (some s0 : Option Sect) with
        | some s => insertAll s [] empty
        | none => empty) = buildTail d (insertAll s0 [] empty) from rfl]
    rw [hstart, buildTail_spec d [(([] : Str), s0)] h.1 hkeys hfresh_one]
    by_cases hsec : sec = []
    · subst hsec
      unfold get
      rw [alookup_append]
      rw [show alookup ([] : Str) [(([] : Str), s0)] = some s0 from by
        rw [show alookup ([] : Str) [(([] : Str), s0)] =
            if ([] : Str) = ([] : Str) then some s0 else none from rfl]
        rw [if_pos rfl]]
      rw [hal]
    · have hone : alookup sec [(([] : Str), s0)] = none := by
        rw [show alookup sec [(([] : Str), s0)] =
            if ([] : Str) = sec then some s0 else none from rfl]
        rw [if_neg (fun he => hsec he.symm)]
      have hsplit2 : get k sec ([(([] : Str), s0)] ++ List.filter keepSect d) =
          get k sec (List.filter keepSect d) := by
        unfold get
        rw [alookup_append, hone]
      rw [hsplit2]
      exact hfilter (fun he => absurd he hsec)

/-- Claim C1 (amended): for every document built purely via `insert` whose
keys contain no `=` and no line delimiter, are free of surrounding whitespace
and do not start with `#`, `;` or `[`, whose values contain no line delimiter
and are free of surrounding whitespace, and whose section names contain no
line delimiter, parsing the serialized text succeeds and yields a document
with identical (section, key) to value contents, ignoring ordering. -/
theorem claim1_roundtrip (ops : List (Str × Str × Str))
    (hops : ∀ op ∈ ops, goodKey op.1 = true ∧ goodVal op.2.1 = true ∧
      goodName op.2.2 = true) :
    ∃ e, from_string (to_string (buildDoc ops)) = Except.ok e ∧
      ∀ k sec, get k sec e = get k sec (buildDoc ops) := by
have hwf : docWF (buildDoc ops) := docWF_buildDoc ops hops
exact ⟨_, from_string_to_string (buildDoc ops) hwf,
  fun k sec => get_roundtrip (buildDoc ops) hwf k sec⟩

/-- Witness for C1 at concrete inputs: a two-section document built by three
inserts round-trips with identical contents. -/
theorem claim1_roundtrip_witness :
    ∃ e, from_string (to_string (buildDoc
      [("foo".toList, "bar".toList, []),
       ("baz".toList, "bop".toList, []),
       ("foo".toList, "baz".toList, "section1".toList)])) = Except.ok e ∧
    ∀ k sec, get k sec e = get k sec (buildDoc
      [("foo".toList, "bar".toList, []),
       ("baz".toList, "bop".toList, []),
       ("foo".toList, "baz".toList, "section1".toList)]) :=
  claim1_roundtrip
    [("foo".toList, "bar".toList, []),
     ("baz".toList, "bop".toList, []),
     ("foo".toList, "baz".toList, "section1".toList)] (by decide)

/-- Counterexample for C1 as stated: the document built by the single insert
of key `a=b` with value `c` into the unnamed section serializes to
`a=b = c\n`, which parses back as key `a` with value `b = c`; the original
key's entry is lost, so the round trip does not preserve contents for every
insert-built document. -/
theorem claim1_counterexample :
    from_string (to_string (insert "a=b".toList "c".toList [] empty).2) =
      Except.ok [([], [("a".toList, "b = c".toList)])] ∧
    get "a=b".toList [] [([], [("a".toList, "b = c".toList)])] = none ∧
    get "a=b".toList [] (insert "a=b".toList "c".toList [] empty).2 =
      some "c".toList := ⟨rfl, rfl, rfl⟩

end Innit
